import Mathlib

set_option maxRecDepth 10000

/-!
Verification development for the ReedSolomon erasure-coding repository.

The Rust sources are shallowly embedded: `u8` values are `Nat`s kept below 256,
`Vec<u8>` is `List Nat`, fallible operations return `Except Error _`, and a
possible index-out-of-bounds panic is modelled as `none` in an `Option` layer.
Imperative loops become fuelled structural recursions whose fuel equals the
source loop's iteration count.
-/

namespace RS

/-! ## Galois field layer (src/src/galois.rs) -/

/-- Size of the field, i.e. 2^8 (`FIELD_SIZE` in src/src/galois.rs). -/
def FIELD_SIZE : Nat := 256

/-- Size of the exponent table; the table is repeated a second time so that
`mul` needs no bounds check (`EXP_TABLE_SIZE` in src/src/galois.rs). -/
def EXP_TABLE_SIZE : Nat := FIELD_SIZE * 2 - 2

/-- The irreducible polynomial used to generate the log and exp tables
(`IRREDUCIBLE_POLYNOMIAL` in src/src/galois.rs). -/
def IRREDUCIBLE_POLYNOMIAL : Nat := 29

/-- Loop of `gen_log_table`: `for log in 0..FIELD_SIZE-1 { res[b] = log; b <<= 1;
if FIELD_SIZE <= b { b = (b - FIELD_SIZE) ^ irre_poly } }`.  The fuel is the
number of remaining iterations. -/
def genLogTableGo (irre_poly : Nat) : Nat → Nat → Nat → List Nat → List Nat
  | 0, _, _, res => res
  | fuel + 1, b, log, res =>
    let res1 := res.set b log
    let b1 := b <<< 1
    let b2 := if FIELD_SIZE ≤ b1 then (b1 - FIELD_SIZE) ^^^ irre_poly else b1
    genLogTableGo irre_poly fuel b2 (log + 1) res1

/-- `gen_log_table` from src/src/galois.rs: builds the discrete-log table of
GF(2^8), starting from the primitive element `b = 1`. -/
def gen_log_table (irre_poly : Nat) : List Nat :=
  genLogTableGo irre_poly (FIELD_SIZE - 1) 1 0 (List.replicate FIELD_SIZE 0)

/-- Loop of `gen_exp_table`: `for i in 1..FIELD_SIZE { let log = log_table[i];
res[log] = i; res[log + FIELD_SIZE - 1] = i }`. -/
def genExpTableGo (log_table : List Nat) : Nat → Nat → List Nat → List Nat
  | 0, _, res => res
  | fuel + 1, i, res =>
    let log := log_table.getD i 0
    let res1 := (res.set log i).set (log + FIELD_SIZE - 1) i
    genExpTableGo log_table fuel (i + 1) res1

/-- `gen_exp_table` from src/src/galois.rs: the exp table (with its second
copy) generated from a log table. -/
def gen_exp_table (log_table : List Nat) : List Nat :=
  genExpTableGo log_table (FIELD_SIZE - 1) 1 (List.replicate EXP_TABLE_SIZE 0)

/-- The `GaloisField` struct of src/src/galois.rs. -/
structure GaloisField where
  field_size : Nat
  irre_poly : Nat
  exp_table_size : Nat
  log_table : List Nat
  exp_table : List Nat
deriving DecidableEq, Repr

/-- `GaloisField::new` from src/src/galois.rs. -/
def GaloisField.new : GaloisField :=
  let log_table := gen_log_table IRREDUCIBLE_POLYNOMIAL
  let exp_table := gen_exp_table log_table
  ⟨FIELD_SIZE, IRREDUCIBLE_POLYNOMIAL, EXP_TABLE_SIZE, log_table, exp_table⟩

/-- `GaloisField::add`: addition in GF(2^8) is XOR. -/
def GaloisField.add (a b : Nat) : Nat := a ^^^ b

/-- `GaloisField::sub`: subtraction in GF(2^8) is also XOR. -/
def GaloisField.sub (a b : Nat) : Nat := a ^^^ b

/-- `GaloisField::mul` from src/src/galois.rs: `0` if either factor is `0`,
otherwise `exp_table[log_table[a] + log_table[b]]`. -/
def GaloisField.mul (gf : GaloisField) (a b : Nat) : Nat :=
  if a = 0 ∨ b = 0 then 0
  else gf.exp_table.getD (gf.log_table.getD a 0 + gf.log_table.getD b 0) 0

/-- The `while 255 <= log_res { log_res -= 255 }` loop of `GaloisField::exp`;
the fuel (instantiated with the starting value) bounds the iteration count. -/
def mod255Loop : Nat → Nat → Nat
  | 0, x => x
  | fuel + 1, x => if 255 ≤ x then mod255Loop fuel (x - 255) else x

/-- `GaloisField::exp` from src/src/galois.rs: `a^n` in GF(2^8). -/
def GaloisField.exp (gf : GaloisField) (a n : Nat) : Nat :=
  if n = 0 then 1
  else if a = 0 then 0
  else
    let log_a := gf.log_table.getD a 0
    let log_res := log_a * n
    gf.exp_table.getD (mod255Loop log_res log_res) 0

/-- Modelled from the spec: `GaloisField::div` is absent from
src/src/galois.rs although `Matrix::gauss_elim` calls it; spec §4.1 defines it:
"fails when b==0; otherwise return exp_table[(log_table[a] − log_table[b] +
255) mod 255], with a==0 short-circuiting to 0".  Failure is `none`. -/
def GaloisField.div (gf : GaloisField) (a b : Nat) : Option Nat :=
  if b = 0 then none
  else if a = 0 then some 0
  else some (gf.exp_table.getD ((gf.log_table.getD a 0 + 255 - gf.log_table.getD b 0) % 255) 0)

/-- The pivot scaling factor `gf.div(1, pivot)` used by `gauss_elim`; the
pivot is non-zero on every path that reaches it, so the `getD` default is
never read. -/
def scalePivot (gf : GaloisField) (pivot : Nat) : Nat :=
  (gf.div 1 pivot).getD 0

/-- The log table the repository's own test `test_gen_log_table` expects. -/
def logTableLit : List Nat := [
  0, 0, 1, 25, 2, 50, 26, 198, 3, 223, 51, 238, 27, 104, 199, 75, 4, 100, 224, 14,
  52, 141, 239, 129, 28, 193, 105, 248, 200, 8, 76, 113, 5, 138, 101, 47, 225, 36, 15, 33,
  53, 147, 142, 218, 240, 18, 130, 69, 29, 181, 194, 125, 106, 39, 249, 185, 201, 154, 9, 120,
  77, 228, 114, 166, 6, 191, 139, 98, 102, 221, 48, 253, 226, 152, 37, 179, 16, 145, 34, 136,
  54, 208, 148, 206, 143, 150, 219, 189, 241, 210, 19, 92, 131, 56, 70, 64, 30, 66, 182, 163,
  195, 72, 126, 110, 107, 58, 40, 84, 250, 133, 186, 61, 202, 94, 155, 159, 10, 21, 121, 43,
  78, 212, 229, 172, 115, 243, 167, 87, 7, 112, 192, 247, 140, 128, 99, 13, 103, 74, 222, 237,
  49, 197, 254, 24, 227, 165, 153, 119, 38, 184, 180, 124, 17, 68, 146, 217, 35, 32, 137, 46,
  55, 63, 209, 91, 149, 188, 207, 205, 144, 135, 151, 178, 220, 252, 190, 97, 242, 86, 211, 171,
  20, 42, 93, 158, 132, 60, 57, 83, 71, 109, 65, 162, 31, 45, 67, 216, 183, 123, 164, 118,
  196, 23, 73, 236, 127, 12, 111, 246, 108, 161, 59, 82, 41, 157, 85, 170, 251, 96, 134, 177,
  187, 204, 62, 90, 203, 89, 95, 176, 156, 169, 160, 81, 11, 245, 22, 235, 122, 117, 44, 215,
  79, 174, 213, 233, 230, 231, 173, 232, 116, 214, 244, 234, 168, 80, 88, 175]

/-- The exp table (two copies) the repository's own test `test_gen_exp_table`
expects. -/
def expTableLit : List Nat := [
  1, 2, 4, 8, 16, 32, 64, 128, 29, 58, 116, 232, 205, 135, 19, 38, 76, 152, 45, 90,
  180, 117, 234, 201, 143, 3, 6, 12, 24, 48, 96, 192, 157, 39, 78, 156, 37, 74, 148, 53,
  106, 212, 181, 119, 238, 193, 159, 35, 70, 140, 5, 10, 20, 40, 80, 160, 93, 186, 105, 210,
  185, 111, 222, 161, 95, 190, 97, 194, 153, 47, 94, 188, 101, 202, 137, 15, 30, 60, 120, 240,
  253, 231, 211, 187, 107, 214, 177, 127, 254, 225, 223, 163, 91, 182, 113, 226, 217, 175, 67, 134,
  17, 34, 68, 136, 13, 26, 52, 104, 208, 189, 103, 206, 129, 31, 62, 124, 248, 237, 199, 147,
  59, 118, 236, 197, 151, 51, 102, 204, 133, 23, 46, 92, 184, 109, 218, 169, 79, 158, 33, 66,
  132, 21, 42, 84, 168, 77, 154, 41, 82, 164, 85, 170, 73, 146, 57, 114, 228, 213, 183, 115,
  230, 209, 191, 99, 198, 145, 63, 126, 252, 229, 215, 179, 123, 246, 241, 255, 227, 219, 171, 75,
  150, 49, 98, 196, 149, 55, 110, 220, 165, 87, 174, 65, 130, 25, 50, 100, 200, 141, 7, 14,
  28, 56, 112, 224, 221, 167, 83, 166, 81, 162, 89, 178, 121, 242, 249, 239, 195, 155, 43, 86,
  172, 69, 138, 9, 18, 36, 72, 144, 61, 122, 244, 245, 247, 243, 251, 235, 203, 139, 11, 22,
  44, 88, 176, 125, 250, 233, 207, 131, 27, 54, 108, 216, 173, 71, 142,
  1, 2, 4, 8, 16, 32, 64, 128, 29, 58, 116, 232, 205, 135, 19, 38, 76, 152, 45, 90,
  180, 117, 234, 201, 143, 3, 6, 12, 24, 48, 96, 192, 157, 39, 78, 156, 37, 74, 148, 53,
  106, 212, 181, 119, 238, 193, 159, 35, 70, 140, 5, 10, 20, 40, 80, 160, 93, 186, 105, 210,
  185, 111, 222, 161, 95, 190, 97, 194, 153, 47, 94, 188, 101, 202, 137, 15, 30, 60, 120, 240,
  253, 231, 211, 187, 107, 214, 177, 127, 254, 225, 223, 163, 91, 182, 113, 226, 217, 175, 67, 134,
  17, 34, 68, 136, 13, 26, 52, 104, 208, 189, 103, 206, 129, 31, 62, 124, 248, 237, 199, 147,
  59, 118, 236, 197, 151, 51, 102, 204, 133, 23, 46, 92, 184, 109, 218, 169, 79, 158, 33, 66,
  132, 21, 42, 84, 168, 77, 154, 41, 82, 164, 85, 170, 73, 146, 57, 114, 228, 213, 183, 115,
  230, 209, 191, 99, 198, 145, 63, 126, 252, 229, 215, 179, 123, 246, 241, 255, 227, 219, 171, 75,
  150, 49, 98, 196, 149, 55, 110, 220, 165, 87, 174, 65, 130, 25, 50, 100, 200, 141, 7, 14,
  28, 56, 112, 224, 221, 167, 83, 166, 81, 162, 89, 178, 121, 242, 249, 239, 195, 155, 43, 86,
  172, 69, 138, 9, 18, 36, 72, 144, 61, 122, 244, 245, 247, 243, 251, 235, 203, 139, 11, 22,
  44, 88, 176, 125, 250, 233, 207, 131, 27, 54, 108, 216, 173, 71, 142]

/-- The generated log table equals the literal table from the repository's
tests. -/
theorem gen_log_table_eq : gen_log_table 29 = logTableLit := by
  rfl

/-- The generated exp table equals the literal table from the repository's
tests. -/
theorem gen_exp_table_eq : gen_exp_table logTableLit = expTableLit := by
  rfl

/-- The literal form of `GaloisField::new`. -/
def gfLit : GaloisField := ⟨256, 29, 510, logTableLit, expTableLit⟩

/-- `GaloisField::new` produces exactly the literal tables. -/
theorem GaloisField.new_eq : GaloisField.new = gfLit := by
  simp only [GaloisField.new, gfLit, gen_log_table_eq, gen_exp_table_eq,
    FIELD_SIZE, IRREDUCIBLE_POLYNOMIAL, EXP_TABLE_SIZE]

/-! ## Error taxonomy (src/src/error.rs) -/

/-- The `Error` enum of src/src/error.rs. -/
inductive Error where
  | RowsMustMatch (left_rows right_rows : Nat)
  | RowColMustMatch (left_cols right_rows : Nat)
  | NonSquareMatrix
  | SingularMatrix
  | ZeroDataShards
  | ZeroParityShards
  | ShardsOverflow
  | WrongNoOfShards
  | EmptyShards
  | InconsistentShards
  | TooFewShards
  | TooManyShards
deriving DecidableEq, Repr

/-! ## Matrix layer (src/src/matrix.rs)

src/src/matrix.rs is a draft: it `panic!`s where src/src/error.rs declares
error variants, and it calls the `GaloisField::div` that src/src/galois.rs
does not define, while src/src/lib.rs applies `?` to `invert` and `mul`, so
the `Result`-returning variants those callers use are not under src/.  The
fallible operations below follow the draft's algorithms with the panics
replaced by the spec's error values (spec §4.2), as the callers require. -/

/-- The `Matrix` struct of src/src/matrix.rs. -/
structure Matrix where
  rows : Nat
  cols : Nat
  data : List (List Nat)
deriving DecidableEq, Repr

/-- `Matrix::new`: an all-zero matrix. -/
def Matrix.new (rows cols : Nat) : Matrix :=
  ⟨rows, cols, List.replicate rows (List.replicate cols 0)⟩

/-- `Matrix::new_from_data`. -/
def Matrix.new_from_data (data : List (List Nat)) : Matrix :=
  ⟨data.length, (data.getD 0 []).length, data⟩

/-- `Matrix::new_identity`: 1 on the diagonal, 0 elsewhere. -/
def Matrix.new_identity (size : Nat) : Matrix :=
  ⟨size, size, (List.range size).map fun i =>
    (List.range size).map fun j => if i = j then 1 else 0⟩

/-- `Matrix::new_vandermonde`: `data[r][c] = gf.exp(r as u8, c)`; the `u8`
cast truncates `r` modulo 256. -/
def Matrix.new_vandermonde (rows cols : Nat) (gf : GaloisField) : Matrix :=
  ⟨rows, cols, (List.range rows).map fun r =>
    (List.range cols).map fun c => gf.exp (r % 256) c⟩

/-- `Matrix::new_sub_matrix`: copies the window
`[r_start, r_end) × [c_start, c_end)`. -/
def Matrix.new_sub_matrix (m : Matrix) (r_start r_end c_start c_end : Nat) : Matrix :=
  ⟨r_end - r_start, c_end - c_start,
    (List.range (r_end - r_start)).map fun r =>
      (List.range (c_end - c_start)).map fun c =>
        (m.data.getD (r_start + r) []).getD (c_start + c) 0⟩

/-- `Matrix::new_augmented_matrix` (fallible variant): fails with
`RowsMustMatch` when the row counts differ, otherwise concatenates the rows
of `m` and `right` horizontally. -/
def Matrix.new_augmented_matrix (m right : Matrix) : Except Error Matrix :=
  if m.rows ≠ right.rows then .error (.RowsMustMatch m.rows right.rows)
  else .ok ⟨m.rows, m.cols + right.cols,
    (List.range m.rows).map fun r =>
      ((List.range m.cols).map fun c => (m.data.getD r []).getD c 0) ++
      ((List.range right.cols).map fun c => (right.data.getD r []).getD c 0)⟩

/-- `Matrix::mul` (fallible variant): fails with `RowColMustMatch` when the
inner dimensions differ; each result entry accumulates
`gf.mul(self[r][lc], right[lc][c])` with XOR starting from 0. -/
def Matrix.mul (m right : Matrix) (gf : GaloisField) : Except Error Matrix :=
  if m.cols ≠ right.rows then .error (.RowColMustMatch m.cols right.rows)
  else .ok ⟨m.rows, right.cols,
    (List.range m.rows).map fun r =>
      (List.range right.cols).map fun c =>
        (List.range m.cols).foldl (fun value lc =>
          GaloisField.add value
            (gf.mul ((m.data.getD r []).getD lc 0) ((right.data.getD lc []).getD c 0))) 0⟩

/-- `Matrix::swap_rows` on the raw row list: no-op when the indices agree. -/
def swapRowsData (data : List (List Nat)) (row1 row2 : Nat) : List (List Nat) :=
  if row1 = row2 then data
  else
    let r1 := data.getD row1 []
    let r2 := data.getD row2 []
    (data.set row1 r2).set row2 r1

/-- The pivot-search loop of `gauss_elim`: `for r_below in r+1..rows { if
data[r_below][r] != 0 { swap_rows(r_below, r); break } }`. -/
def gaussSwapLoop (r : Nat) : Nat → Nat → List (List Nat) → List (List Nat)
  | 0, _, data => data
  | fuel + 1, r_below, data =>
    if (data.getD r_below []).getD r 0 ≠ 0 then swapRowsData data r_below r
    else gaussSwapLoop r fuel (r_below + 1) data

/-- The pivot-scaling step of `gauss_elim`: row `r` is multiplied entrywise
by `scale = gf.div(1, data[r][r])`. -/
def scaleRowData (gf : GaloisField) (cols r : Nat) (data : List (List Nat)) : List (List Nat) :=
  let scale := scalePivot gf ((data.getD r []).getD r 0)
  data.set r ((List.range cols).map fun c => gf.mul ((data.getD r []).getD c 0) scale)

/-- The below-diagonal elimination loop of `gauss_elim`: for each row below
`r` with a non-zero entry in column `r`, XOR in that multiple of row `r`. -/
def elimBelowLoop (gf : GaloisField) (cols r : Nat) : Nat → Nat → List (List Nat) → List (List Nat)
  | 0, _, data => data
  | fuel + 1, r_below, data =>
    let data1 :=
      if (data.getD r_below []).getD r 0 ≠ 0 then
        let scale := (data.getD r_below []).getD r 0
        data.set r_below ((List.range cols).map fun c =>
          GaloisField.add ((data.getD r_below []).getD c 0) (gf.mul scale ((data.getD r []).getD c 0)))
      else data
    elimBelowLoop gf cols r fuel (r_below + 1) data1

/-- Phase one of `gauss_elim` over pivot rows `r = 0..rows`: swap in a pivot
if needed, fail with `SingularMatrix` when none exists, scale the pivot to 1,
then clear the column below it. -/
def gaussPhase1 (gf : GaloisField) (rows cols : Nat) :
    Nat → Nat → List (List Nat) → Except Error (List (List Nat))
  | 0, _, data => .ok data
  | fuel + 1, r, data =>
    let data1 :=
      if (data.getD r []).getD r 0 = 0 then gaussSwapLoop r (rows - (r + 1)) (r + 1) data
      else data
    if (data1.getD r []).getD r 0 = 0 then .error .SingularMatrix
    else
      let data2 :=
        if (data1.getD r []).getD r 0 ≠ 1 then scaleRowData gf cols r data1 else data1
      gaussPhase1 gf rows cols fuel (r + 1) (elimBelowLoop gf cols r (rows - (r + 1)) (r + 1) data2)

/-- The above-diagonal elimination loop of `gauss_elim`: for each row above
`d` with a non-zero entry in column `d`, XOR in that multiple of row `d`. -/
def elimAboveLoop (gf : GaloisField) (cols d : Nat) : Nat → Nat → List (List Nat) → List (List Nat)
  | 0, _, data => data
  | fuel + 1, r_above, data =>
    let data1 :=
      if (data.getD r_above []).getD d 0 ≠ 0 then
        let scale := (data.getD r_above []).getD d 0
        data.set r_above ((List.range cols).map fun c =>
          GaloisField.add ((data.getD r_above []).getD c 0) (gf.mul scale ((data.getD d []).getD c 0)))
      else data
    elimAboveLoop gf cols d fuel (r_above + 1) data1

/-- Phase two of `gauss_elim` over diagonals `d = 0..rows`. -/
def gaussPhase2 (gf : GaloisField) (cols : Nat) : Nat → Nat → List (List Nat) → List (List Nat)
  | 0, _, data => data
  | fuel + 1, d, data => gaussPhase2 gf cols fuel (d + 1) (elimAboveLoop gf cols d d 0 data)

/-- Modelled from the spec: `Matrix::gauss_elim` (fallible variant).  The
draft in src/src/matrix.rs panics on a singular matrix; per spec §4.2 the
variant used by the codec surfaces `SingularMatrix` as an error value. -/
def Matrix.gauss_elim (m : Matrix) (gf : GaloisField) : Except Error Matrix :=
  match gaussPhase1 gf m.rows m.cols m.rows 0 m.data with
  | .error e => .error e
  | .ok d1 => .ok ⟨m.rows, m.cols, gaussPhase2 gf m.cols m.rows 0 d1⟩

/-- The continuation of `invert` after the augmented work matrix is built:
run `gauss_elim` (propagating its error) and return the right half. -/
def invertStep (m : Matrix) (gf : GaloisField) (work : Matrix) : Except Error Matrix :=
  match work.gauss_elim gf with
  | .error e => .error e
  | .ok w2 => .ok (w2.new_sub_matrix 0 m.rows m.cols (m.cols * 2))

/-- Modelled from the spec: `Matrix::invert` (fallible variant).  Fails with
`NonSquareMatrix` if the receiver is not square; otherwise reduces the
augmented matrix `[self | I]` and returns its right half, propagating
`SingularMatrix` from the elimination.  All failures are error values. -/
def Matrix.invert (m : Matrix) (gf : GaloisField) : Except Error Matrix :=
  if m.rows ≠ m.cols then .error .NonSquareMatrix
  else
    match m.new_augmented_matrix (Matrix.new_identity m.rows) with
    | .error e => .error e
    | .ok work => invertStep m gf work

/-! ## Codec layer (src/src/lib.rs) -/

/-- The `ReedSolomon` struct of src/src/lib.rs. -/
structure ReedSolomon where
  data_shard_count : Nat
  parity_shard_count : Nat
  total_shard_count : Nat
  parity : Matrix
  gf : GaloisField
  matrix : Matrix
deriving DecidableEq, Repr

/-- `ReedSolomon::build_matrix` from src/src/lib.rs: Vandermonde matrix times
the inverse of its top square. -/
def ReedSolomon.build_matrix (data_shards total_shards : Nat) (gf : GaloisField) :
    Except Error Matrix :=
  let vandermonde := Matrix.new_vandermonde total_shards data_shards gf
  let top := vandermonde.new_sub_matrix 0 data_shards 0 data_shards
  match top.invert gf with
  | .error e => .error e
  | .ok top_inv => vandermonde.mul top_inv gf

/-- The `for i in 0..parity_shards { parity.data[i] = matrix.data[data_shards + i] }`
loop of `ReedSolomon::new`. -/
def setParityLoop (matrix : Matrix) (data_shards : Nat) :
    Nat → Nat → List (List Nat) → List (List Nat)
  | 0, _, pdata => pdata
  | fuel + 1, i, pdata =>
    setParityLoop matrix data_shards fuel (i + 1)
      (pdata.set i (matrix.data.getD (data_shards + i) []))

/-- `ReedSolomon::new` from src/src/lib.rs. -/
def ReedSolomon.new (data_shards parity_shards : Nat) : Except Error ReedSolomon :=
  if data_shards = 0 then .error .ZeroDataShards
  else if parity_shards = 0 then .error .ZeroParityShards
  else if 256 < data_shards + parity_shards then .error .ShardsOverflow
  else
    let gf := GaloisField.new
    let total_shards := data_shards + parity_shards
    match ReedSolomon.build_matrix data_shards total_shards gf with
    | .error e => .error e
    | .ok matrix =>
      let parity0 := Matrix.new parity_shards data_shards
      let pdata := setParityLoop matrix data_shards parity_shards 0 parity0.data
      .ok ⟨data_shards, parity_shards, total_shards,
        ⟨parity_shards, data_shards, pdata⟩, gf, matrix⟩

/-- `ReedSolomon::check_shard_sizes` from src/src/lib.rs.  The length check
loop returns `InconsistentShards` exactly when some entry's length differs
from `shards[0].len()`. -/
def ReedSolomon.check_shard_sizes (rs : ReedSolomon) (shards : List (List Nat)) :
    Except Error Unit :=
  if shards.length ≠ rs.total_shard_count then .error .WrongNoOfShards
  else
    let shard_elem_len := (shards.getD 0 []).length
    if shard_elem_len = 0 then .error .EmptyShards
    else if ∃ elem ∈ shards, elem.length ≠ shard_elem_len then .error .InconsistentShards
    else .ok ()

/-- The `inp == 0` inner byte loop of `encode_shards`, acting on the single
row `outputs[out]`: `outputs[out][i_byte] = gf.mul(parity_byte, *input)`.
A write beyond the row's length is the out-of-bounds panic, i.e. `none`. -/
def initRow (gf : GaloisField) (parity_byte : Nat) :
    List Nat → Nat → List Nat → Option (List Nat)
  | [], _, row => some row
  | input :: rest, i_byte, row =>
    if i_byte < row.length then
      initRow gf parity_byte rest (i_byte + 1) (row.set i_byte (gf.mul parity_byte input))
    else none

/-- The `inp > 0` inner byte loop of `encode_shards`:
`outputs[out][i_byte] = add(outputs[out][i_byte], gf.mul(parity_byte, *input))`. -/
def accRow (gf : GaloisField) (parity_byte : Nat) :
    List Nat → Nat → List Nat → Option (List Nat)
  | [], _, row => some row
  | input :: rest, i_byte, row =>
    if i_byte < row.length then
      accRow gf parity_byte rest (i_byte + 1)
        (row.set i_byte (GaloisField.add (row.getD i_byte 0) (gf.mul parity_byte input)))
    else none

/-- One `(inp, out)` iteration of `encode_shards`: read
`parity.data[out][inp]` (out-of-bounds panics as `none`), then run the byte
loop over `inputs[inp]` into `outputs[out]`. -/
def encodeCell (gf : GaloisField) (parity : Matrix) (inputs : List (List Nat)) (inp out : Nat)
    (outputs : List (List Nat)) : Option (List (List Nat)) :=
  match (parity.data.get? out).bind fun prow => prow.get? inp with
  | none => none
  | some parity_byte =>
    match inputs.get? inp, outputs.get? out with
    | some xs, some row =>
      (if inp = 0 then initRow gf parity_byte xs 0 row
       else accRow gf parity_byte xs 0 row).map fun row1 => outputs.set out row1
    | _, _ => none

/-- The inner `for out in 0..parity_shard_count` loop of `encode_shards`. -/
def encodeOutLoop (gf : GaloisField) (parity : Matrix) (inputs : List (List Nat)) (inp : Nat) :
    Nat → Nat → List (List Nat) → Option (List (List Nat))
  | 0, _, outputs => some outputs
  | fuel + 1, out, outputs =>
    match encodeCell gf parity inputs inp out outputs with
    | none => none
    | some outputs1 => encodeOutLoop gf parity inputs inp fuel (out + 1) outputs1

/-- The outer `for inp in 0..data_shard_count` loop of `encode_shards`. -/
def encodeInpLoop (gf : GaloisField) (parity : Matrix) (inputs : List (List Nat)) (m : Nat) :
    Nat → Nat → List (List Nat) → Option (List (List Nat))
  | 0, _, outputs => some outputs
  | fuel + 1, inp, outputs =>
    match encodeOutLoop gf parity inputs inp m 0 outputs with
    | none => none
    | some outputs1 => encodeInpLoop gf parity inputs m fuel (inp + 1) outputs1

/-- `ReedSolomon::encode_shards` from src/src/lib.rs.  Note the loop bounds
come from the codec (`data_shard_count`, `parity_shard_count`), not from the
`parity` matrix argument. -/
def ReedSolomon.encode_shards (rs : ReedSolomon) (parity : Matrix)
    (inputs outputs : List (List Nat)) : Option (List (List Nat)) :=
  encodeInpLoop rs.gf parity inputs rs.parity_shard_count rs.data_shard_count 0 outputs

/-- `ReedSolomon::encode` from src/src/lib.rs.  `none` models a panic inside
`encode_shards`. -/
def ReedSolomon.encode (rs : ReedSolomon) (shards : List (List Nat)) :
    Option (Except Error (List (List Nat))) :=
  match rs.check_shard_sizes shards with
  | .error e => some (.error e)
  | .ok _ =>
    let inputs := shards.take rs.data_shard_count
    let outputs := shards.drop rs.data_shard_count
    match rs.encode_shards rs.parity inputs outputs with
    | none => none
    | some outputs1 => some (.ok (inputs ++ outputs1))

/-- The first counting loop of `check_shard_sizes_for_decode`: `for elem in
shards { if elem.len() != 0 { present += 1; shard_elem_len = elem.len() } }`,
returning `(present, shard_elem_len)` from `(0, 0)`. -/
def presentLenFold (shards : List (List Nat)) : Nat × Nat :=
  shards.foldl (fun acc elem => if elem.length ≠ 0 then (acc.1 + 1, elem.length) else acc) (0, 0)

/-- The second counting loop of `check_shard_sizes_for_decode`: the number of
entries whose length equals `shard_elem_len`. -/
def sameSizeCount (shard_elem_len : Nat) (shards : List (List Nat)) : Nat :=
  shards.foldl (fun acc elem => if elem.length = shard_elem_len then acc + 1 else acc) 0

/-- `ReedSolomon::check_shard_sizes_for_decode` from src/src/lib.rs: the two
counting loops, modelled as the same left folds the source performs. -/
def ReedSolomon.check_shard_sizes_for_decode (rs : ReedSolomon) (shards : List (List Nat)) :
    Except Error (Nat × Nat) :=
  if shards.length < rs.total_shard_count then .error .TooFewShards
  else if rs.total_shard_count < shards.length then .error .TooManyShards
  else
    let pl := presentLenFold shards
    let same_size := sameSizeCount pl.2 shards
    if pl.1 ≠ same_size then .error .InconsistentShards
    else if pl.1 < rs.data_shard_count then .error .TooFewShards
    else .ok (pl.1, pl.2)

/-- The `while matrix_row < total && sub_matrix_row < data` loop of `decode`
that collects the first `k` present shards and the matching rows of the
encoding matrix. -/
def buildSubLoop (mat shards : List (List Nat)) (k : Nat) :
    Nat → Nat → Nat → List (List Nat) → List (List Nat) →
    List (List Nat) × List (List Nat)
  | 0, _, _, subM, subS => (subM, subS)
  | fuel + 1, matrix_row, sub_matrix_row, subM, subS =>
    if sub_matrix_row < k then
      if (shards.getD matrix_row []).length ≠ 0 then
        buildSubLoop mat shards k fuel (matrix_row + 1) (sub_matrix_row + 1)
          (subM.set sub_matrix_row (mat.getD matrix_row []))
          (subS.set sub_matrix_row (shards.getD matrix_row []))
      else buildSubLoop mat shards k fuel (matrix_row + 1) sub_matrix_row subM subS
    else (subM, subS)

/-- The `for i in 0..data_shard_count` loop of `decode` that copies the
decode-matrix rows of the missing data shards into `matrix_rows`. -/
def buildMatrixRowsLoop (ddm shards : List (List Nat)) :
    Nat → Nat → Nat → List (List Nat) → List (List Nat) × Nat
  | 0, _, output_count, mrows => (mrows, output_count)
  | fuel + 1, i, output_count, mrows =>
    if (shards.getD i []).length = 0 then
      buildMatrixRowsLoop ddm shards fuel (i + 1) (output_count + 1)
        (mrows.set output_count (ddm.getD i []))
    else buildMatrixRowsLoop ddm shards fuel (i + 1) output_count mrows

/-- The loop of `decode` that fills missing data shards from the computed
outputs; reading `outputs[output_count]` out of bounds panics (`none`). -/
def fillDataLoop (outputs : List (List Nat)) :
    Nat → Nat → Nat → List (List Nat) → Option (List (List Nat) × Nat)
  | 0, _, output_count, shards => some (shards, output_count)
  | fuel + 1, i, output_count, shards =>
    if (shards.getD i []).length = 0 then
      match outputs.get? output_count with
      | none => none
      | some row => fillDataLoop outputs fuel (i + 1) (output_count + 1) (shards.set i row)
    else fillDataLoop outputs fuel (i + 1) output_count shards

/-- The loop of `decode` that replaces missing parity shards with an
all-zero placeholder of length `shard_elem_len`. -/
def fillParityLoop (shard_elem_len : Nat) : Nat → Nat → List (List Nat) → List (List Nat)
  | 0, _, shards => shards
  | fuel + 1, i, shards =>
    fillParityLoop shard_elem_len fuel (i + 1)
      (if (shards.getD i []).length = 0 then shards.set i (List.replicate shard_elem_len 0)
       else shards)

/-- The body of `ReedSolomon::decode` after `check_shard_sizes_for_decode`
has returned `(present, shard_elem_len)`.  `none` models an
index-out-of-bounds panic on the way. -/
def decodeBody (rs : ReedSolomon) (shards : List (List Nat))
    (present shard_elem_len : Nat) : Option (Except Error (List (List Nat))) :=
  if present = rs.total_shard_count then some (.ok shards)
  else
      let k := rs.data_shard_count
      let sub0 := Matrix.new k k
      let subPair := buildSubLoop rs.matrix.data shards k rs.total_shard_count 0 0
        sub0.data (List.replicate k [])
      let sub_matrix : Matrix := ⟨k, k, subPair.1⟩
      let sub_shard := subPair.2
      match sub_matrix.invert rs.gf with
      | .error e => some (.error e)
      | .ok data_decode_matrix =>
        let m := rs.parity_shard_count
        let mrows0 := Matrix.new m m
        let mrowsPair := buildMatrixRowsLoop data_decode_matrix.data shards k 0 0 mrows0.data
        let matrix_rows : Matrix := ⟨m, m, mrowsPair.1⟩
        let outputs0 := List.replicate m (List.replicate shard_elem_len 0)
        match rs.encode_shards matrix_rows sub_shard outputs0 with
        | none => none
        | some outputs =>
          match fillDataLoop outputs k 0 0 shards with
          | none => none
          | some filled =>
            let shards3 := fillParityLoop shard_elem_len (rs.total_shard_count - k) k filled.1
            rs.encode shards3

/-- `ReedSolomon::decode` from src/src/lib.rs: validation, then the body. -/
def ReedSolomon.decode (rs : ReedSolomon) (shards : List (List Nat)) :
    Option (Except Error (List (List Nat))) :=
  match rs.check_shard_sizes_for_decode shards with
  | .error e => some (.error e)
  | .ok pres => decodeBody rs shards pres.1 pres.2

/-! ## Basic list lemmas used throughout -/

theorem getD_set_self {α : Type} {l : List α} {i : Nat} {v d : α} (h : i < l.length) :
    (l.set i v).getD i d = v := by
  simp [List.getD_eq_getElem?_getD, List.getElem?_set_self h]

theorem getD_set_ne {α : Type} {l : List α} {i j : Nat} (h : i ≠ j) (v d : α) :
    (l.set i v).getD j d = l.getD j d := by
  simp [List.getD_eq_getElem?_getD, List.getElem?_set_ne h]

theorem getD_replicate {α : Type} {n m : Nat} {a d : α} (h : m < n) :
    (List.replicate n a).getD m d = a := by
  simp [List.getD_eq_getElem?_getD, List.getElem?_replicate_of_lt h]

theorem getD_append_left {α : Type} {l₁ l₂ : List α} {n : Nat} (h : n < l₁.length) (d : α) :
    (l₁ ++ l₂).getD n d = l₁.getD n d := by
  simp [List.getD_eq_getElem?_getD, List.getElem?_append_left h]

theorem getD_append_right {α : Type} {l₁ l₂ : List α} {n : Nat} (h : l₁.length ≤ n) (d : α) :
    (l₁ ++ l₂).getD n d = l₂.getD (n - l₁.length) d := by
  simp [List.getD_eq_getElem?_getD, List.getElem?_append_right h]

/-- Two lists agreeing pointwise with a range-map are equal. -/
theorem eq_range_map {α : Type} (d : α) (n : Nat) (f : Nat → α) (l : List α)
    (hlen : l.length = n) (hpt : ∀ j, j < n → l.getD j d = f j) :
    l = (List.range n).map f := by
  apply List.ext_getElem
  · simp [hlen]
  · intro i h1 h2
    have hi : i < n := by simpa [hlen] using h1
    have := hpt i hi
    simp only [List.getD_eq_getElem?_getD, List.getElem?_eq_getElem h1] at this
    simpa [List.getElem_map, List.getElem_range, Option.getD_some] using this

/-! ## Concrete codecs from `ReedSolomon::new` -/

/-- The codec `ReedSolomon::new(2, 2)` in literal form. -/
def rs22 : ReedSolomon :=
  ⟨2, 2, 4, ⟨2, 2, [[3, 2], [2, 3]]⟩, gfLit, ⟨4, 2, [[1, 0], [0, 1], [3, 2], [2, 3]]⟩⟩

set_option maxHeartbeats 4000000 in
/-- `ReedSolomon::new(2, 2)` succeeds and equals the literal codec. -/
theorem rs22_built : ReedSolomon.new 2 2 = Except.ok rs22 := by rfl

/-- The codec `ReedSolomon::new(2, 1)` in literal form. -/
def rs21 : ReedSolomon :=
  ⟨2, 1, 3, ⟨1, 2, [[3, 2]]⟩, gfLit, ⟨3, 2, [[1, 0], [0, 1], [3, 2]]⟩⟩

set_option maxHeartbeats 4000000 in
/-- `ReedSolomon::new(2, 1)` succeeds and equals the literal codec. -/
theorem rs21_built : ReedSolomon.new 2 1 = Except.ok rs21 := by rfl

/-- Composition of the two table-generation steps in literal form. -/
theorem gen_exp_table_full_eq : gen_exp_table (gen_log_table 29) = expTableLit := by
  rw [gen_log_table_eq, gen_exp_table_eq]

/-- Every entry of the log table is at most 254. -/
theorem logTableLit_le_254 : ∀ a : Nat, a < 256 → logTableLit.getD a 0 ≤ 254 := by decide

/-! ## C8 — table invariants -/

/-- C8 counterexample: the claimed invariant `log_table[exp_table[i]] = i for
every i in [1,255]` fails at `i = 255`: the second copy starts there, so
`exp_table[255] = 1` and `log_table[1] = 0 ≠ 255`. -/
theorem c8_log_exp_roundtrip_fails_at_255 :
    (gen_exp_table (gen_log_table 29)).getD 255 0 = 1 ∧
    (gen_log_table 29).getD ((gen_exp_table (gen_log_table 29)).getD 255 0) 0 = 0 ∧
    (0 : Nat) ≠ 255 := by
  rw [gen_exp_table_full_eq, gen_log_table_eq]
  refine ⟨by decide, by decide, by decide⟩

/-- C8 (amended): the tables built by `gen_log_table(29)` and `gen_exp_table`
satisfy `log_table[exp_table[i]] = i` for `i ∈ [1,254]` (not `[1,255]`),
`exp_table[log_table[a]] = a` for `a ∈ [1,255]`,
`exp_table[i] = exp_table[i+255]` for `i ∈ [0,254]`, `log_table[0] = 0`, and
the concrete values `log_table[2] = 1`, `log_table[255] = 175`,
`exp_table[0] = 1`, `exp_table[254] = 142`, `exp_table[255] = 1`. -/
theorem c8_table_invariants :
    (∀ i : Nat, i < 255 → 1 ≤ i →
      (gen_log_table 29).getD ((gen_exp_table (gen_log_table 29)).getD i 0) 0 = i) ∧
    (∀ a : Nat, a < 256 → 1 ≤ a →
      (gen_exp_table (gen_log_table 29)).getD ((gen_log_table 29).getD a 0) 0 = a) ∧
    (∀ i : Nat, i < 255 →
      (gen_exp_table (gen_log_table 29)).getD i 0 =
        (gen_exp_table (gen_log_table 29)).getD (i + 255) 0) ∧
    (gen_log_table 29).getD 0 0 = 0 ∧
    (gen_log_table 29).getD 2 0 = 1 ∧
    (gen_log_table 29).getD 255 0 = 175 ∧
    (gen_exp_table (gen_log_table 29)).getD 0 0 = 1 ∧
    (gen_exp_table (gen_log_table 29)).getD 254 0 = 142 ∧
    (gen_exp_table (gen_log_table 29)).getD 255 0 = 1 := by
  rw [gen_exp_table_full_eq, gen_log_table_eq]
  refine ⟨by decide, by decide, by decide, by decide, by decide, by decide,
    by decide, by decide, by decide⟩

/-- Witness for C8: the amended round-trip invariant at `i = 3`. -/
theorem c8_table_invariants_witness :
    3 < 255 ∧ 1 ≤ 3 ∧
    (gen_log_table 29).getD ((gen_exp_table (gen_log_table 29)).getD 3 0) 0 = 3 :=
  ⟨by decide, by decide, c8_table_invariants.1 3 (by decide) (by decide)⟩

/-! ## C9 — `mul` stays in bounds -/

/-- C9: `GaloisField::mul` is total on bytes.  The exp table has 510 entries;
for non-zero bytes the index `log_table[a] + log_table[b]` is at most 508 and
in particular within the table, and `mul` returns 0 whenever a factor is 0. -/
theorem c9_mul_total (a b : Nat) (ha : a < 256) (hb : b < 256) :
    GaloisField.new.exp_table.length = 510 ∧
    (a ≠ 0 → b ≠ 0 →
      GaloisField.new.log_table.getD a 0 + GaloisField.new.log_table.getD b 0 ≤ 508 ∧
      GaloisField.new.log_table.getD a 0 + GaloisField.new.log_table.getD b 0 <
        GaloisField.new.exp_table.length) ∧
    ((a = 0 ∨ b = 0) → GaloisField.new.mul a b = 0) := by
  rw [GaloisField.new_eq]
  refine ⟨by decide, ?_, ?_⟩
  · intro _ _
    have h1 := logTableLit_le_254 a ha
    have h2 := logTableLit_le_254 b hb
    have hlen : gfLit.exp_table.length = 510 := by decide
    exact ⟨by simpa using Nat.add_le_add h1 h2, by simp only [gfLit] at *; omega⟩
  · intro h
    simp [GaloisField.mul, h]

/-- Witness for C9 at `a = 3`, `b = 5`. -/
theorem c9_mul_total_witness :
    3 < 256 ∧ 5 < 256 ∧
    (GaloisField.new.exp_table.length = 510 ∧
      ((3 : Nat) ≠ 0 → (5 : Nat) ≠ 0 →
        GaloisField.new.log_table.getD 3 0 + GaloisField.new.log_table.getD 5 0 ≤ 508 ∧
        GaloisField.new.log_table.getD 3 0 + GaloisField.new.log_table.getD 5 0 <
          GaloisField.new.exp_table.length) ∧
      (((3 : Nat) = 0 ∨ (5 : Nat) = 0) → GaloisField.new.mul 3 5 = 0)) :=
  ⟨by decide, by decide, c9_mul_total 3 5 (by decide) (by decide)⟩

/-! ## C7 — `div` semantics and its use by `gauss_elim` -/

/-- C7: `div(a,b)` fails exactly on `b = 0`, short-circuits `a = 0` to `0`,
otherwise computes `exp_table[(log_table[a] − log_table[b] + 255) mod 255]`;
the `gauss_elim` pivot scale `scalePivot` is exactly `div(1, pivot)` for a
non-zero pivot, and on the codec's field it scales the pivot to 1. -/
theorem c7_div_semantics (gf : GaloisField) (a b : Nat) :
    (b = 0 → gf.div a b = none) ∧
    (b ≠ 0 → a = 0 → gf.div a b = some 0) ∧
    (b ≠ 0 → a ≠ 0 →
      gf.div a b = some (gf.exp_table.getD
        ((gf.log_table.getD a 0 + 255 - gf.log_table.getD b 0) % 255) 0)) ∧
    (∀ pivot : Nat, pivot ≠ 0 → gf.div 1 pivot = some (scalePivot gf pivot)) ∧
    (∀ pivot : Nat, pivot < 256 → pivot ≠ 0 →
      GaloisField.new.mul pivot (scalePivot GaloisField.new pivot) = 1) := by
  refine ⟨?_, ?_, ?_, ?_, ?_⟩
  · intro hb; simp [GaloisField.div, hb]
  · intro hb ha; simp [GaloisField.div, hb, ha]
  · intro hb ha; simp [GaloisField.div, hb, ha]
  · intro pivot hp; simp [scalePivot, GaloisField.div, hp]
  · rw [GaloisField.new_eq]
    decide

/-- Witness for C7 at `b = 0` resp. `a = 6, b = 3` and pivot `7`. -/
theorem c7_div_semantics_witness :
    gfLit.div 6 0 = none ∧
    gfLit.div 0 3 = some 0 ∧
    gfLit.div 1 7 = some (scalePivot gfLit 7) ∧
    GaloisField.new.mul 7 (scalePivot GaloisField.new 7) = 1 :=
  ⟨(c7_div_semantics gfLit 6 0).1 rfl,
   (c7_div_semantics gfLit 0 3).2.1 (by decide) rfl,
   (c7_div_semantics gfLit 1 7).2.2.2.1 7 (by decide),
   (c7_div_semantics gfLit 1 7).2.2.2.2 7 (by decide) (by decide)⟩

/-! ## C6 — `invert` failure modes -/

/-- `gaussPhase1` can only fail with `SingularMatrix`. -/
theorem gaussPhase1_error_singular (gf : GaloisField) (rows cols : Nat) :
    ∀ (fuel r : Nat) (data : List (List Nat)) (e : Error),
      gaussPhase1 gf rows cols fuel r data = .error e → e = .SingularMatrix := by
  intro fuel
  induction fuel with
  | zero => intro r data e h; simp [gaussPhase1] at h
  | succ n ih =>
    intro r data e h
    rw [gaussPhase1] at h
    by_cases hz : ((if (data.getD r []).getD r 0 = 0
        then gaussSwapLoop r (rows - (r + 1)) (r + 1) data else data).getD r []).getD r 0 = 0
    · rw [if_pos hz] at h
      exact (Except.error.injEq _ _).mp h.symm ▸ rfl
    · rw [if_neg hz] at h
      exact ih _ _ _ h

/-- `gauss_elim` can only fail with `SingularMatrix`. -/
theorem gauss_elim_error_singular (m : Matrix) (gf : GaloisField) (e : Error)
    (h : m.gauss_elim gf = .error e) : e = .SingularMatrix := by
  unfold Matrix.gauss_elim at h
  revert h
  cases hg : gaussPhase1 gf m.rows m.cols m.rows 0 m.data with
  | error e1 =>
    intro h
    cases h
    exact gaussPhase1_error_singular gf m.rows m.cols m.rows 0 m.data _ hg
  | ok d1 => intro h; cases h

/-- The augmented work matrix `[self | I]` that `invert` builds. -/
def augIdentity (m : Matrix) : Matrix :=
  ⟨m.rows, m.cols + m.rows,
    (List.range m.rows).map fun r =>
      ((List.range m.cols).map fun c => (m.data.getD r []).getD c 0) ++
      ((List.range m.rows).map fun c =>
        ((Matrix.new_identity m.rows).data.getD r []).getD c 0)⟩

/-- Augmenting a matrix with the identity of its own row count succeeds. -/
theorem augment_identity_ok (m : Matrix) :
    m.new_augmented_matrix (Matrix.new_identity m.rows) = .ok (augIdentity m) := by
  unfold Matrix.new_augmented_matrix augIdentity
  rw [if_neg]
  · simp [Matrix.new_identity]
  · simp [Matrix.new_identity]

/-- On a square matrix, `invert` is `invertStep` on the augmented matrix. -/
theorem invert_of_square (m : Matrix) (gf : GaloisField) (h : m.rows = m.cols) :
    m.invert gf = invertStep m gf (augIdentity m) := by
  unfold Matrix.invert
  rw [if_neg (by simp [h]), augment_identity_ok m]

/-- `invertStep` propagates a `gauss_elim` error unchanged. -/
theorem invertStep_error (m : Matrix) (gf : GaloisField) (work : Matrix) (e : Error)
    (hg : work.gauss_elim gf = .error e) : invertStep m gf work = .error e := by
  unfold invertStep
  rw [hg]

/-- `invertStep` returns the right half of the eliminated matrix on success. -/
theorem invertStep_ok (m : Matrix) (gf : GaloisField) (work w2 : Matrix)
    (hg : work.gauss_elim gf = .ok w2) :
    invertStep m gf work = .ok (w2.new_sub_matrix 0 m.rows m.cols (m.cols * 2)) := by
  unfold invertStep
  rw [hg]

/-- C6: `Matrix::invert` fails with `NonSquareMatrix` when the receiver is
not square, fails only with `NonSquareMatrix` or `SingularMatrix`, and
propagates `SingularMatrix` from `gauss_elim` when the augmented matrix has a
pivotless column; all failures are `Except.error` values of the embedding,
never a panic. -/
theorem c6_invert_error_behaviour (m : Matrix) (gf : GaloisField) :
    (m.rows ≠ m.cols → m.invert gf = Except.error Error.NonSquareMatrix) ∧
    (∀ e, m.invert gf = Except.error e →
      e = Error.NonSquareMatrix ∨ e = Error.SingularMatrix) ∧
    (∀ work e, m.rows = m.cols →
      m.new_augmented_matrix (Matrix.new_identity m.rows) = Except.ok work →
      work.gauss_elim gf = Except.error e →
      e = Error.SingularMatrix ∧ m.invert gf = Except.error Error.SingularMatrix) := by
  refine ⟨?_, ?_, ?_⟩
  · intro h; unfold Matrix.invert; rw [if_pos h]
  · intro e h
    by_cases hsq : m.rows = m.cols
    · rw [invert_of_square m gf hsq] at h
      cases hg : (augIdentity m).gauss_elim gf with
      | error e2 =>
        rw [invertStep_error m gf _ e2 hg] at h
        injection h with h1
        exact Or.inr (h1 ▸ gauss_elim_error_singular _ gf e2 hg)
      | ok w2 =>
        rw [invertStep_ok m gf _ w2 hg] at h
        cases h
    · unfold Matrix.invert at h
      rw [if_pos hsq] at h
      injection h with h1
      exact Or.inl h1.symm
  · intro work e hsq haug hg
    have hwork : work = augIdentity m := by
      rw [augment_identity_ok m] at haug
      injection haug with h1
      exact h1.symm
    subst hwork
    have he : e = Error.SingularMatrix := gauss_elim_error_singular _ gf e hg
    subst he
    exact ⟨rfl, by rw [invert_of_square m gf hsq, invertStep_error m gf _ _ hg]⟩

/-- Witness for C6: a 1×2 matrix is rejected as non-square, and the singular
1×1 zero matrix makes `gauss_elim` on its augmented matrix `[0 | 1]` fail
with `SingularMatrix`, which `invert` propagates. -/
theorem c6_invert_error_behaviour_witness :
    (Matrix.mk 1 2 [[0, 0]]).invert gfLit = Except.error Error.NonSquareMatrix ∧
    (Matrix.mk 1 1 [[0]]).invert gfLit = Except.error Error.SingularMatrix :=
  ⟨(c6_invert_error_behaviour ⟨1, 2, [[0, 0]]⟩ gfLit).1 (by decide),
   ((c6_invert_error_behaviour ⟨1, 1, [[0]]⟩ gfLit).2.2 (augIdentity ⟨1, 1, [[0]]⟩)
      Error.SingularMatrix rfl (augment_identity_ok _) (by rfl)).2⟩

/-! ## C1 — the decode round trip panics for K > M -/

/-- C1 (code bug): for the codec `new(2,1)`, encoding `[[1],[2],[0]]` yields
`[[1],[2],[7]]`, but decoding after erasing only the parity shard — one
erasure, within `M = 1` — hits an index out of bounds (modelled as `none`)
instead of returning the encoded array: `encode_shards` reads
`matrix_rows.data[out][inp]` for every `inp < K = 2`, although the
`matrix_rows` built by `decode` is only `M×M = 1×1`. -/
theorem c1_decode_round_trip_panics :
    ReedSolomon.new 2 1 = Except.ok rs21 ∧
    rs21.encode [[1], [2], [0]] = some (Except.ok [[1], [2], [7]]) ∧
    rs21.decode [[1], [2], []] = none :=
  ⟨rs21_built, by rfl, by rfl⟩

/-! ## More list helpers -/

theorem get?_eq_some_getD {α : Type} {l : List α} {n : Nat} (d : α) (h : n < l.length) :
    l.get? n = some (l.getD n d) := by
  simp [List.get?_eq_getElem?, List.getElem?_eq_getElem h, List.getD_eq_getElem?_getD]

theorem get?_some_lt {α : Type} {l : List α} {n : Nat} {x : α} (h : l.get? n = some x) :
    n < l.length := by
  rw [List.get?_eq_getElem?] at h
  obtain ⟨h1, _⟩ := List.getElem?_eq_some.mp h
  exact h1

theorem get?_some_getD {α : Type} {l : List α} {n : Nat} {x : α} (d : α)
    (h : l.get? n = some x) : l.getD n d = x := by
  simp [List.getD_eq_getElem?_getD, ← List.get?_eq_getElem?, h]

theorem getD_take {α : Type} {l : List α} {i k : Nat} (h : i < k) (d : α) :
    (l.take k).getD i d = l.getD i d := by
  simp [List.getD_eq_getElem?_getD, List.getElem?_take, h]

theorem getD_drop {α : Type} (l : List α) (n i : Nat) (d : α) :
    (l.drop n).getD i d = l.getD (n + i) d := by
  simp [List.getD_eq_getElem?_getD, List.getElem?_drop]

theorem getD_mem {α : Type} {l : List α} {n : Nat} (d : α) (h : n < l.length) :
    l.getD n d ∈ l := by
  simp only [List.getD_eq_getElem?_getD, List.getElem?_eq_getElem h, Option.getD_some]
  exact List.getElem_mem h

/-! ## The XOR accumulation of `encode_shards` -/

/-- XOR of `f 0, …, f (n-1)`, accumulated from the left exactly like the
`inp` loop of `encode_shards`. -/
def xorSum (f : Nat → Nat) : Nat → Nat
  | 0 => 0
  | n + 1 => GaloisField.add (xorSum f n) (f n)

/-- The parity byte of spec §4.3: for output row `o` and column `j`,
`Pb[o][j] = XOR over i in 0..k of Field.mul(P[o][i], D[i][j])`. -/
def paritySpecByte (gf : GaloisField) (P D : List (List Nat)) (k o j : Nat) : Nat :=
  xorSum (fun i => gf.mul ((P.getD o []).getD i 0) ((D.getD i []).getD j 0)) k

theorem xorSum_congr (f g : Nat → Nat) (n : Nat) (h : ∀ u, u < n → f u = g u) :
    xorSum f n = xorSum g n := by
  induction n with
  | zero => rfl
  | succ m ih => rw [xorSum, xorSum, ih (fun u hu => h u (by omega)), h m (by omega)]

theorem xorSum_shift (g : Nat → Nat) (s : Nat) :
    ∀ n : Nat, xorSum (fun u => g (s + u)) (n + 1) =
      GaloisField.add (g s) (xorSum (fun u => g (s + 1 + u)) n) := by
  intro n
  induction n with
  | zero =>
    show GaloisField.add (xorSum _ 0) (g (s + 0)) = GaloisField.add (g s) 0
    simp [xorSum, GaloisField.add]
  | succ m ih =>
    show GaloisField.add (xorSum (fun u => g (s + u)) (m + 1)) (g (s + (m + 1))) = _
    rw [ih]
    show (g s ^^^ xorSum (fun u => g (s + 1 + u)) m) ^^^ g (s + (m + 1)) = _
    rw [Nat.xor_assoc]
    have : s + (m + 1) = s + 1 + m := by omega
    rw [this]
    rfl

/-! ## Pointwise characterisation of the `encode_shards` loops -/

theorem initRow_spec (gf : GaloisField) (pb : Nat) :
    ∀ (xs : List Nat) (i : Nat) (row : List Nat), i + xs.length ≤ row.length →
      ∃ row1, initRow gf pb xs i row = some row1 ∧
        row1.length = row.length ∧
        (∀ t, t < i → row1.getD t 0 = row.getD t 0) ∧
        (∀ t, i ≤ t → t < i + xs.length →
          row1.getD t 0 = gf.mul pb (xs.getD (t - i) 0)) ∧
        (∀ t, i + xs.length ≤ t → row1.getD t 0 = row.getD t 0) := by
  intro xs
  induction xs with
  | nil =>
    intro i row _
    exact ⟨row, rfl, rfl, fun _ _ => rfl,
      fun t h1 h2 => absurd h2 (by simp only [List.length_nil]; omega),
      fun _ _ => rfl⟩
  | cons x rest ih =>
    intro i row h
    have hlen : i + rest.length + 1 ≤ row.length := by
      simp only [List.length_cons] at h; omega
    have hi : i < row.length := by omega
    obtain ⟨row1, heq, hl, hlow, hmid, hhigh⟩ :=
      ih (i + 1) (row.set i (gf.mul pb x)) (by rw [List.length_set]; omega)
    refine ⟨row1, ?_, ?_, ?_, ?_, ?_⟩
    · simp only [initRow, if_pos hi]
      exact heq
    · rw [hl, List.length_set]
    · intro t ht
      rw [hlow t (by omega), getD_set_ne (by omega) _ _]
    · intro t ht1 ht2
      by_cases hti : t = i
      · subst hti
        rw [hlow t (by omega), getD_set_self hi]
        simp
      · have h1 : i + 1 ≤ t := by omega
        have h2 : t < (i + 1) + rest.length := by
          simp only [List.length_cons] at ht2; omega
        rw [hmid t h1 h2]
        have harith : t - i = (t - (i + 1)) + 1 := by omega
        rw [harith, List.getD_cons_succ]
    · intro t ht
      have h1 : (i + 1) + rest.length ≤ t := by
        simp only [List.length_cons] at ht; omega
      rw [hhigh t h1, getD_set_ne (by omega) _ _]

theorem accRow_spec (gf : GaloisField) (pb : Nat) :
    ∀ (xs : List Nat) (i : Nat) (row : List Nat), i + xs.length ≤ row.length →
      ∃ row1, accRow gf pb xs i row = some row1 ∧
        row1.length = row.length ∧
        (∀ t, t < i → row1.getD t 0 = row.getD t 0) ∧
        (∀ t, i ≤ t → t < i + xs.length →
          row1.getD t 0 = GaloisField.add (row.getD t 0) (gf.mul pb (xs.getD (t - i) 0))) ∧
        (∀ t, i + xs.length ≤ t → row1.getD t 0 = row.getD t 0) := by
  intro xs
  induction xs with
  | nil =>
    intro i row _
    exact ⟨row, rfl, rfl, fun _ _ => rfl,
      fun t h1 h2 => absurd h2 (by simp only [List.length_nil]; omega),
      fun _ _ => rfl⟩
  | cons x rest ih =>
    intro i row h
    have hlen : i + rest.length + 1 ≤ row.length := by
      simp only [List.length_cons] at h; omega
    have hi : i < row.length := by omega
    obtain ⟨row1, heq, hl, hlow, hmid, hhigh⟩ :=
      ih (i + 1) (row.set i (GaloisField.add (row.getD i 0) (gf.mul pb x)))
        (by rw [List.length_set]; omega)
    refine ⟨row1, ?_, ?_, ?_, ?_, ?_⟩
    · simp only [accRow, if_pos hi]
      exact heq
    · rw [hl, List.length_set]
    · intro t ht
      rw [hlow t (by omega), getD_set_ne (by omega) _ _]
    · intro t ht1 ht2
      by_cases hti : t = i
      · subst hti
        rw [hlow t (by omega), getD_set_self hi]
        simp
      · have h1 : i + 1 ≤ t := by omega
        have h2 : t < (i + 1) + rest.length := by
          simp only [List.length_cons] at ht2; omega
        rw [hmid t h1 h2, getD_set_ne (by omega) _ _]
        have harith : t - i = (t - (i + 1)) + 1 := by omega
        rw [harith, List.getD_cons_succ]
    · intro t ht
      have h1 : (i + 1) + rest.length ≤ t := by
        simp only [List.length_cons] at ht; omega
      rw [hhigh t h1, getD_set_ne (by omega) _ _]

theorem encodeCell_eq (gf : GaloisField) (parity : Matrix) (inputs : List (List Nat))
    (inp out : Nat) (outputs : List (List Nat))
    (hpo : out < parity.data.length) (hpi : inp < (parity.data.getD out []).length)
    (hin : inp < inputs.length) (hout : out < outputs.length) :
    encodeCell gf parity inputs inp out outputs =
      (if inp = 0 then
        initRow gf ((parity.data.getD out []).getD inp 0) (inputs.getD inp []) 0
          (outputs.getD out [])
      else
        accRow gf ((parity.data.getD out []).getD inp 0) (inputs.getD inp []) 0
          (outputs.getD out [])).map fun row1 => outputs.set out row1 := by
  have h1 : (parity.data.get? out).bind (fun prow => prow.get? inp) =
      some ((parity.data.getD out []).getD inp 0) := by
    rw [get?_eq_some_getD [] hpo]
    exact get?_eq_some_getD 0 hpi
  unfold encodeCell
  rw [h1, get?_eq_some_getD [] hin, get?_eq_some_getD [] hout]

theorem encodeCell_spec (gf : GaloisField) (parity : Matrix) (inputs : List (List Nat))
    (inp out : Nat) (outputs : List (List Nat))
    (hpo : out < parity.data.length) (hpi : inp < (parity.data.getD out []).length)
    (hin : inp < inputs.length) (hout : out < outputs.length)
    (hfit : (inputs.getD inp []).length ≤ (outputs.getD out []).length) :
    ∃ outs1, encodeCell gf parity inputs inp out outputs = some outs1 ∧
      outs1.length = outputs.length ∧
      (∀ o, o ≠ out → outs1.getD o [] = outputs.getD o []) ∧
      (outs1.getD out []).length = (outputs.getD out []).length ∧
      (∀ t, t < (inputs.getD inp []).length →
        (outs1.getD out []).getD t 0 =
          (if inp = 0 then
            gf.mul ((parity.data.getD out []).getD inp 0) ((inputs.getD inp []).getD t 0)
          else
            GaloisField.add ((outputs.getD out []).getD t 0)
              (gf.mul ((parity.data.getD out []).getD inp 0) ((inputs.getD inp []).getD t 0)))) ∧
      (∀ t, (inputs.getD inp []).length ≤ t →
        (outs1.getD out []).getD t 0 = (outputs.getD out []).getD t 0) := by
  rw [encodeCell_eq gf parity inputs inp out outputs hpo hpi hin hout]
  by_cases h0 : inp = 0
  · obtain ⟨row1, heq, hl, _hlow, hmid, hhigh⟩ :=
      initRow_spec gf ((parity.data.getD out []).getD inp 0) (inputs.getD inp []) 0
        (outputs.getD out []) (by omega)
    rw [if_pos h0, heq]
    refine ⟨outputs.set out row1, rfl, List.length_set _ _ _, ?_, ?_, ?_, ?_⟩
    · intro o ho
      exact getD_set_ne (fun hh => ho hh.symm) _ _
    · rw [getD_set_self hout, hl]
    · intro t ht
      rw [getD_set_self hout, hmid t (by omega) (by omega), if_pos h0, Nat.sub_zero]
    · intro t ht
      rw [getD_set_self hout, hhigh t (by omega)]
  · obtain ⟨row1, heq, hl, _hlow, hmid, hhigh⟩ :=
      accRow_spec gf ((parity.data.getD out []).getD inp 0) (inputs.getD inp []) 0
        (outputs.getD out []) (by omega)
    rw [if_neg h0, heq]
    refine ⟨outputs.set out row1, rfl, List.length_set _ _ _, ?_, ?_, ?_, ?_⟩
    · intro o ho
      exact getD_set_ne (fun hh => ho hh.symm) _ _
    · rw [getD_set_self hout, hl]
    · intro t ht
      rw [getD_set_self hout, hmid t (by omega) (by omega), if_neg h0, Nat.sub_zero]
    · intro t ht
      rw [getD_set_self hout, hhigh t (by omega)]

theorem encodeOutLoop_spec (gf : GaloisField) (parity : Matrix) (inputs : List (List Nat))
    (inp : Nat) (hin : inp < inputs.length) :
    ∀ (fuel c : Nat) (outputs : List (List Nat)),
      (∀ o, c ≤ o → o < c + fuel →
        o < parity.data.length ∧ inp < (parity.data.getD o []).length ∧
        o < outputs.length ∧ (inputs.getD inp []).length ≤ (outputs.getD o []).length) →
      ∃ outs1, encodeOutLoop gf parity inputs inp fuel c outputs = some outs1 ∧
        outs1.length = outputs.length ∧
        (∀ o, o < c ∨ c + fuel ≤ o → outs1.getD o [] = outputs.getD o []) ∧
        (∀ o, c ≤ o → o < c + fuel →
          (outs1.getD o []).length = (outputs.getD o []).length ∧
          (∀ t, t < (inputs.getD inp []).length →
            (outs1.getD o []).getD t 0 =
              (if inp = 0 then
                gf.mul ((parity.data.getD o []).getD inp 0) ((inputs.getD inp []).getD t 0)
              else
                GaloisField.add ((outputs.getD o []).getD t 0)
                  (gf.mul ((parity.data.getD o []).getD inp 0)
                    ((inputs.getD inp []).getD t 0)))) ∧
          (∀ t, (inputs.getD inp []).length ≤ t →
            (outs1.getD o []).getD t 0 = (outputs.getD o []).getD t 0)) := by
  intro fuel
  induction fuel with
  | zero =>
    intro c outputs _
    exact ⟨outputs, rfl, rfl, fun _ _ => rfl, fun o h1 h2 => absurd h2 (by omega)⟩
  | succ n ih =>
    intro c outputs hyp
    obtain ⟨hpo, hpi, hout, hfit⟩ := hyp c (by omega) (by omega)
    obtain ⟨outsA, heqA, hlA, hunchA, hclenA, hcellA, htailA⟩ :=
      encodeCell_spec gf parity inputs inp c outputs hpo hpi hin hout hfit
    obtain ⟨outs2, heq2, hl2, hunch2, hmid2⟩ := ih (c + 1) outsA (fun o h1 h2 => by
      obtain ⟨p1, p2, p3, p4⟩ := hyp o (by omega) (by omega)
      rw [hunchA o (by omega)]
      exact ⟨p1, p2, by omega, p4⟩)
    refine ⟨outs2, ?_, ?_, ?_, ?_⟩
    · simp only [encodeOutLoop, heqA]
      exact heq2
    · rw [hl2, hlA]
    · intro o ho
      rw [hunch2 o (by omega), hunchA o (by omega)]
    · intro o h1 h2
      by_cases hoc : o = c
      · subst hoc
        have hu2 : outs2.getD o [] = outsA.getD o [] := hunch2 o (by omega)
        rw [hu2]
        exact ⟨hclenA, hcellA, htailA⟩
      · obtain ⟨q1, q2, q3⟩ := hmid2 o (by omega) (by omega)
        have hu : outsA.getD o [] = outputs.getD o [] := hunchA o hoc
        rw [hu] at q1 q2 q3
        exact ⟨q1, q2, q3⟩

theorem encodeInpLoop_acc_spec (gf : GaloisField) (parity : Matrix) (inputs : List (List Nat))
    (mcount L : Nat) :
    ∀ (fuel s : Nat) (outputs : List (List Nat)), 1 ≤ s →
      (∀ i, s ≤ i → i < s + fuel → i < inputs.length ∧ (inputs.getD i []).length = L) →
      (∀ o, o < mcount → o < parity.data.length ∧
        (∀ i, s ≤ i → i < s + fuel → i < (parity.data.getD o []).length)) →
      outputs.length = mcount →
      (∀ o, o < mcount → (outputs.getD o []).length = L) →
      ∃ outs1, encodeInpLoop gf parity inputs mcount fuel s outputs = some outs1 ∧
        outs1.length = mcount ∧
        (∀ o, o < mcount → (outs1.getD o []).length = L ∧
          (∀ t, t < L → (outs1.getD o []).getD t 0 =
            GaloisField.add ((outputs.getD o []).getD t 0)
              (xorSum (fun u =>
                gf.mul ((parity.data.getD o []).getD (s + u) 0)
                  ((inputs.getD (s + u) []).getD t 0)) fuel))) := by
  intro fuel
  induction fuel with
  | zero =>
    intro s outputs _hs _hinp _hpar hlen hrow
    refine ⟨outputs, rfl, hlen, fun o ho => ⟨hrow o ho, fun t _ht => ?_⟩⟩
    show _ = GaloisField.add _ (xorSum _ 0)
    simp [xorSum, GaloisField.add]
  | succ n ih =>
    intro s outputs hs hinp hpar hlen hrow
    obtain ⟨hsin, hsL⟩ := hinp s (by omega) (by omega)
    obtain ⟨outsA, heqA, hlA, _hunchA, hmidA⟩ :=
      encodeOutLoop_spec gf parity inputs s hsin mcount 0 outputs (fun o h0 hlt => by
        obtain ⟨hp1, hp2⟩ := hpar o (by omega)
        refine ⟨hp1, hp2 s (by omega) (by omega), by omega, ?_⟩
        rw [hsL, hrow o (by omega)])
    have houtsA_len : outsA.length = mcount := by rw [hlA, hlen]
    have houtsA_row : ∀ o, o < mcount → (outsA.getD o []).length = L := by
      intro o ho
      obtain ⟨q1, _, _⟩ := hmidA o (by omega) (by omega)
      rw [q1, hrow o ho]
    obtain ⟨outs2, heq2, hl2, hcells2⟩ := ih (s + 1) outsA (by omega)
      (fun i h1 h2 => hinp i (by omega) (by omega))
      (fun o ho => ⟨(hpar o ho).1, fun i h1 h2 => (hpar o ho).2 i (by omega) (by omega)⟩)
      houtsA_len houtsA_row
    refine ⟨outs2, ?_, hl2, ?_⟩
    · simp only [encodeInpLoop, heqA]
      exact heq2
    · intro o ho
      obtain ⟨hAlen, hAcell, _hAtail⟩ := hmidA o (by omega) (by omega)
      obtain ⟨h2len, h2cell⟩ := hcells2 o ho
      refine ⟨h2len, fun t ht => ?_⟩
      rw [h2cell t ht, hAcell t (by rw [hsL]; exact ht), if_neg (by omega)]
      have hshift := xorSum_shift (fun i =>
        gf.mul ((parity.data.getD o []).getD i 0) ((inputs.getD i []).getD t 0)) s n
      simp only [] at hshift
      rw [hshift]
      show (_ ^^^ _) ^^^ _ = _ ^^^ (_ ^^^ _)
      rw [Nat.xor_assoc]

theorem encodeInpLoop_closed (gf : GaloisField) (parity : Matrix) (inputs : List (List Nat))
    (k mcount L : Nat) (hk : 1 ≤ k)
    (hinp : ∀ i, i < k → i < inputs.length ∧ (inputs.getD i []).length = L)
    (hpar : ∀ o, o < mcount → o < parity.data.length ∧
      (∀ i, i < k → i < (parity.data.getD o []).length))
    (outputs : List (List Nat)) (hlen : outputs.length = mcount)
    (hrow : ∀ o, o < mcount → (outputs.getD o []).length = L) :
    ∃ outs1, encodeInpLoop gf parity inputs mcount k 0 outputs = some outs1 ∧
      outs1.length = mcount ∧
      (∀ o, o < mcount → (outs1.getD o []).length = L ∧
        (∀ t, t < L → (outs1.getD o []).getD t 0 =
          xorSum (fun i =>
            gf.mul ((parity.data.getD o []).getD i 0) ((inputs.getD i []).getD t 0)) k)) := by
  obtain ⟨k1, rfl⟩ : ∃ k1, k = k1 + 1 := ⟨k - 1, by omega⟩
  obtain ⟨h0in, h0L⟩ := hinp 0 (by omega)
  obtain ⟨outsA, heqA, hlA, _hunchA, hmidA⟩ :=
    encodeOutLoop_spec gf parity inputs 0 h0in mcount 0 outputs (fun o h0 hlt => by
      obtain ⟨hp1, hp2⟩ := hpar o (by omega)
      refine ⟨hp1, hp2 0 (by omega), by omega, ?_⟩
      rw [h0L, hrow o (by omega)])
  have houtsA_len : outsA.length = mcount := by rw [hlA, hlen]
  have houtsA_row : ∀ o, o < mcount → (outsA.getD o []).length = L := by
    intro o ho
    obtain ⟨q1, _, _⟩ := hmidA o (by omega) (by omega)
    rw [q1, hrow o ho]
  obtain ⟨outs2, heq2, hl2, hcells2⟩ :=
    encodeInpLoop_acc_spec gf parity inputs mcount L k1 1 outsA (by omega)
      (fun i h1 h2 => hinp i (by omega))
      (fun o ho => ⟨(hpar o ho).1, fun i h1 h2 => (hpar o ho).2 i (by omega)⟩)
      houtsA_len houtsA_row
  refine ⟨outs2, ?_, hl2, ?_⟩
  · simp only [encodeInpLoop, heqA]
    exact heq2
  · intro o ho
    obtain ⟨hAlen, hAcell, _hAtail⟩ := hmidA o (by omega) (by omega)
    obtain ⟨h2len, h2cell⟩ := hcells2 o ho
    refine ⟨h2len, fun t ht => ?_⟩
    rw [h2cell t ht, hAcell t (by rw [h0L]; exact ht), if_pos rfl]
    have hshift := xorSum_shift (fun i =>
      gf.mul ((parity.data.getD o []).getD i 0) ((inputs.getD i []).getD t 0)) 0 k1
    simp only [Nat.zero_add] at hshift
    rw [hshift]

/-! ## The closed form of `encode` -/

theorem check_shard_sizes_ok (rs : ReedSolomon) (shards : List (List Nat)) (L : Nat)
    (hlen : shards.length = rs.total_shard_count)
    (hpos : 0 < shards.length)
    (hall : ∀ s ∈ shards, s.length = L)
    (hL : L ≠ 0) :
    rs.check_shard_sizes shards = .ok () := by
  have hhead : (shards.getD 0 []).length = L := hall _ (getD_mem [] hpos)
  simp only [ReedSolomon.check_shard_sizes]
  rw [if_neg (show ¬shards.length ≠ rs.total_shard_count by omega), hhead, if_neg hL,
    if_neg (show ¬∃ elem ∈ shards, elem.length ≠ L by
      push_neg
      intro e he
      rw [hall e he])]

theorem encode_closed_form (rs : ReedSolomon) (shards : List (List Nat)) (L : Nat)
    (hK : 1 ≤ rs.data_shard_count)
    (hN : rs.total_shard_count = rs.data_shard_count + rs.parity_shard_count)
    (hlen : shards.length = rs.total_shard_count)
    (hall : ∀ s ∈ shards, s.length = L)
    (hL : L ≠ 0)
    (hPlen : rs.parity.data.length = rs.parity_shard_count)
    (hProw : ∀ row ∈ rs.parity.data, rs.data_shard_count ≤ row.length) :
    rs.encode shards = some (Except.ok (shards.take rs.data_shard_count ++
      (List.range rs.parity_shard_count).map fun o =>
        (List.range L).map fun j =>
          paritySpecByte rs.gf rs.parity.data shards rs.data_shard_count o j)) := by
  have hck := check_shard_sizes_ok rs shards L hlen (by omega) hall hL
  have hinp : ∀ i, i < rs.data_shard_count →
      i < (shards.take rs.data_shard_count).length ∧
      ((shards.take rs.data_shard_count).getD i []).length = L := by
    intro i hi
    constructor
    · rw [List.length_take]; omega
    · rw [getD_take hi]
      exact hall _ (getD_mem [] (by omega))
  have hpar : ∀ o, o < rs.parity_shard_count → o < rs.parity.data.length ∧
      (∀ i, i < rs.data_shard_count → i < (rs.parity.data.getD o []).length) := by
    intro o ho
    refine ⟨by omega, fun i hi => ?_⟩
    have := hProw (rs.parity.data.getD o []) (getD_mem [] (by omega))
    omega
  have hout_len : (shards.drop rs.data_shard_count).length = rs.parity_shard_count := by
    rw [List.length_drop]; omega
  have hout_row : ∀ o, o < rs.parity_shard_count →
      ((shards.drop rs.data_shard_count).getD o []).length = L := by
    intro o ho
    rw [getD_drop]
    exact hall _ (getD_mem [] (by omega))
  obtain ⟨outs1, heq, hl, hcells⟩ := encodeInpLoop_closed rs.gf rs.parity
    (shards.take rs.data_shard_count) rs.data_shard_count rs.parity_shard_count L hK
    hinp hpar (shards.drop rs.data_shard_count) hout_len hout_row
  have houts_eq : outs1 = (List.range rs.parity_shard_count).map fun o =>
      (List.range L).map fun j =>
        paritySpecByte rs.gf rs.parity.data shards rs.data_shard_count o j := by
    apply eq_range_map [] rs.parity_shard_count _ outs1 hl
    intro o ho
    apply eq_range_map 0 L _ _ (hcells o ho).1
    intro j hj
    rw [(hcells o ho).2 j hj]
    unfold paritySpecByte
    apply xorSum_congr
    intro u hu
    rw [getD_take hu]
  unfold ReedSolomon.encode
  rw [hck]
  show (match rs.encode_shards rs.parity (shards.take rs.data_shard_count)
      (shards.drop rs.data_shard_count) with
    | none => none
    | some outputs1 => some (Except.ok (shards.take rs.data_shard_count ++ outputs1))) = _
  unfold ReedSolomon.encode_shards
  rw [heq, houts_eq]

/-! ## C2 — encode semantics -/

/-- C2: on a valid input (exactly N non-empty shards of one length L) the
encoder preserves the first K entries verbatim and writes, at entry `K + o`
and byte `j`, the XOR over `i < K` of `mul(P[o][i], D[i][j])`, where `P` is
the codec's parity block and `D` the first `K` input entries. -/
theorem c2_encode_semantics (rs : ReedSolomon) (shards : List (List Nat)) (L : Nat)
    (hK : 1 ≤ rs.data_shard_count)
    (hN : rs.total_shard_count = rs.data_shard_count + rs.parity_shard_count)
    (hlen : shards.length = rs.total_shard_count)
    (hall : ∀ s ∈ shards, s.length = L)
    (hL : L ≠ 0)
    (hPlen : rs.parity.data.length = rs.parity_shard_count)
    (hProw : ∀ row ∈ rs.parity.data, rs.data_shard_count ≤ row.length) :
    rs.encode shards = some (Except.ok (shards.take rs.data_shard_count ++
      (List.range rs.parity_shard_count).map fun o =>
        (List.range L).map fun j =>
          paritySpecByte rs.gf rs.parity.data shards rs.data_shard_count o j)) :=
  encode_closed_form rs shards L hK hN hlen hall hL hPlen hProw

/-- Witness for C2 at the codec `new(2,2)` with the repository's own test
vector (arbitrary parity placeholders `[9,9,9]`, `[8,8,8]`). -/
theorem c2_encode_semantics_witness :
    rs22.encode [[0, 1, 2], [3, 4, 5], [9, 9, 9], [8, 8, 8]] =
      some (Except.ok [[0, 1, 2], [3, 4, 5], [6, 11, 12], [5, 14, 11]]) := by
  have h := c2_encode_semantics rs22 [[0, 1, 2], [3, 4, 5], [9, 9, 9], [8, 8, 8]] 3
    (by decide) (by decide) (by decide) (by decide) (by decide) (by decide) (by decide)
  rw [h]
  rfl

/-! ## C10 — encode ignores the initial parity contents -/

/-- C10: two valid inputs agreeing on their first K entries encode to the
same output, and in particular `new(2,2)` maps `[[0,1,2],[3,4,5],p,q]` to
`[[0,1,2],[3,4,5],[6,11,12],[5,14,11]]` for arbitrary length-3 placeholders
`p`, `q`. -/
theorem c10_encode_ignores_parity_placeholders :
    (∀ (rs : ReedSolomon) (s1 s2 : List (List Nat)) (L : Nat),
      1 ≤ rs.data_shard_count →
      rs.total_shard_count = rs.data_shard_count + rs.parity_shard_count →
      rs.parity.data.length = rs.parity_shard_count →
      (∀ row ∈ rs.parity.data, rs.data_shard_count ≤ row.length) →
      s1.length = rs.total_shard_count → s2.length = rs.total_shard_count →
      (∀ s ∈ s1, s.length = L) → (∀ s ∈ s2, s.length = L) → L ≠ 0 →
      s1.take rs.data_shard_count = s2.take rs.data_shard_count →
      rs.encode s1 = rs.encode s2) ∧
    (∀ p q : List Nat, p.length = 3 → q.length = 3 →
      rs22.encode [[0, 1, 2], [3, 4, 5], p, q] =
        some (Except.ok [[0, 1, 2], [3, 4, 5], [6, 11, 12], [5, 14, 11]])) := by
  constructor
  · intro rs s1 s2 L hK hN hPlen hProw h1len h2len h1all h2all hL htake
    have hform : ((List.range rs.parity_shard_count).map fun o =>
        (List.range L).map fun j =>
          paritySpecByte rs.gf rs.parity.data s1 rs.data_shard_count o j) =
      ((List.range rs.parity_shard_count).map fun o =>
        (List.range L).map fun j =>
          paritySpecByte rs.gf rs.parity.data s2 rs.data_shard_count o j) := by
      apply List.map_congr_left
      intro o _ho
      apply List.map_congr_left
      intro j _hj
      unfold paritySpecByte
      apply xorSum_congr
      intro u hu
      have hu1 : (s1.take rs.data_shard_count).getD u [] = s1.getD u [] := getD_take hu []
      have hu2 : (s2.take rs.data_shard_count).getD u [] = s2.getD u [] := getD_take hu []
      rw [← hu1, ← hu2, htake]
    rw [encode_closed_form rs s1 L hK hN h1len h1all hL hPlen hProw,
        encode_closed_form rs s2 L hK hN h2len h2all hL hPlen hProw, htake, hform]
  · intro p q hp hq
    have h := encode_closed_form rs22 [[0, 1, 2], [3, 4, 5], p, q] 3
      (by decide) (by decide) (by rfl)
      (by intro t ht
          simp only [List.mem_cons, List.not_mem_nil, or_false] at ht
          rcases ht with rfl | rfl | rfl | rfl
          · rfl
          · rfl
          · exact hp
          · exact hq)
      (by decide) (by decide) (by decide)
    have hDeq : ((List.range rs22.parity_shard_count).map fun o =>
        (List.range 3).map fun j =>
          paritySpecByte rs22.gf rs22.parity.data [[0, 1, 2], [3, 4, 5], p, q]
            rs22.data_shard_count o j) =
      ((List.range rs22.parity_shard_count).map fun o =>
        (List.range 3).map fun j =>
          paritySpecByte rs22.gf rs22.parity.data [[0, 1, 2], [3, 4, 5]]
            rs22.data_shard_count o j) := by
      apply List.map_congr_left
      intro o _ho
      apply List.map_congr_left
      intro j _hj
      unfold paritySpecByte
      apply xorSum_congr
      intro u hu
      have hu2 : u < 2 := hu
      match u, hu2 with
      | 0, _ => rfl
      | 1, _ => rfl
    rw [h, hDeq]
    rfl

/-- Witness for C10: two concrete placeholder choices for `new(2,2)`. -/
theorem c10_encode_ignores_parity_placeholders_witness :
    rs22.encode [[1], [2], [3], [4]] = rs22.encode [[1], [2], [9], [9]] ∧
    rs22.encode [[0, 1, 2], [3, 4, 5], [0, 0, 0], [0, 0, 0]] =
      some (Except.ok [[0, 1, 2], [3, 4, 5], [6, 11, 12], [5, 14, 11]]) :=
  ⟨c10_encode_ignores_parity_placeholders.1 rs22 [[1], [2], [3], [4]] [[1], [2], [9], [9]] 1
      (by decide) (by decide) (by decide) (by decide) (by decide) (by decide) (by decide)
      (by decide) (by decide) (by decide),
   c10_encode_ignores_parity_placeholders.2 [0, 0, 0] [0, 0, 0] rfl rfl⟩

/-! ## C4 — encode with an empty shard -/

/-- C4 counterexample: an empty shard that is not the first entry makes
`encode` fail with `InconsistentShards`, not `EmptyShards`. -/
theorem c4_empty_shard_counterexample :
    rs22.encode [[1], [], [1], [1]] = some (Except.error Error.InconsistentShards) ∧
    Error.InconsistentShards ≠ Error.EmptyShards :=
  ⟨by rfl, by decide⟩

/-- C4 (amended): when the outer length equals N and some entry is empty,
`encode` always fails, with `EmptyShards` when the first entry is empty and
with `InconsistentShards` otherwise. -/
theorem c4_encode_empty_shard_rejected (rs : ReedSolomon) (shards : List (List Nat))
    (hlen : shards.length = rs.total_shard_count)
    (hempty : ∃ s ∈ shards, s = []) :
    rs.encode shards = some (Except.error
      (if shards.getD 0 [] = [] then Error.EmptyShards else Error.InconsistentShards)) := by
  obtain ⟨s0, hs0mem, hs0⟩ := hempty
  by_cases hh : shards.getD 0 [] = []
  · rw [if_pos hh]
    have hck : rs.check_shard_sizes shards = .error .EmptyShards := by
      simp only [ReedSolomon.check_shard_sizes]
      rw [if_neg (show ¬shards.length ≠ rs.total_shard_count by omega),
        if_pos (show (shards.getD 0 []).length = 0 by rw [hh]; rfl)]
    unfold ReedSolomon.encode
    rw [hck]
  · rw [if_neg hh]
    have hlen0 : (shards.getD 0 []).length ≠ 0 := by
      intro h0
      exact hh (List.eq_nil_of_length_eq_zero h0)
    have hck : rs.check_shard_sizes shards = .error .InconsistentShards := by
      simp only [ReedSolomon.check_shard_sizes]
      rw [if_neg (show ¬shards.length ≠ rs.total_shard_count by omega), if_neg hlen0,
        if_pos (show ∃ elem ∈ shards, elem.length ≠ (shards.getD 0 []).length from
          ⟨s0, hs0mem, by rw [hs0]; exact fun hcon => hlen0 hcon.symm⟩)]
    unfold ReedSolomon.encode
    rw [hck]

/-- Witness for C4: the first shard empty yields `EmptyShards`. -/
theorem c4_encode_empty_shard_rejected_witness :
    rs22.encode [[], [1], [1], [1]] = some (Except.error Error.EmptyShards) := by
  have h := c4_encode_empty_shard_rejected rs22 [[], [1], [1], [1]] (by decide)
    ⟨[], by decide, rfl⟩
  rw [h]
  rfl

/-! ## C5 — decode validation -/

/-- C5 counterexample: the all-empty input has fewer than K non-empty shards
but decode reports `InconsistentShards` (the consistency check counts every
length-0 entry against `shard_elem_len = 0`), not `TooFewShards`. -/
theorem c5_all_empty_counterexample :
    rs22.decode [[], [], [], []] = some (Except.error Error.InconsistentShards) ∧
    Error.InconsistentShards ≠ Error.TooFewShards :=
  ⟨by rfl, by decide⟩

/-- The number of non-empty entries, as counted by the validation loop. -/
def presentCount : List (List Nat) → Nat
  | [] => 0
  | e :: r => (if e.length ≠ 0 then 1 else 0) + presentCount r

/-- The number of entries of length `n`. -/
def countLen (n : Nat) : List (List Nat) → Nat
  | [] => 0
  | e :: r => (if e.length = n then 1 else 0) + countLen n r

theorem presentFold_fst (shards : List (List Nat)) : ∀ acc : Nat × Nat,
    (shards.foldl (fun acc elem =>
      if elem.length ≠ 0 then (acc.1 + 1, elem.length) else acc) acc).1
      = acc.1 + presentCount shards := by
  induction shards with
  | nil => intro acc; simp [presentCount]
  | cons e r ih =>
    intro acc
    simp only [List.foldl_cons]
    by_cases he : e.length ≠ 0
    · rw [if_pos he, ih]
      simp only [presentCount, if_pos he]
      omega
    · rw [if_neg he, ih]
      simp only [presentCount, if_neg he]
      omega

theorem presentLenFold_fst (shards : List (List Nat)) :
    (presentLenFold shards).1 = presentCount shards := by
  rw [presentLenFold, presentFold_fst]
  omega

theorem sameSizeCount_eq (n : Nat) (shards : List (List Nat)) : ∀ acc : Nat,
    shards.foldl (fun acc elem => if elem.length = n then acc + 1 else acc) acc
      = acc + countLen n shards := by
  induction shards with
  | nil => intro acc; simp [countLen]
  | cons e r ih =>
    intro acc
    simp only [List.foldl_cons]
    by_cases he : e.length = n
    · rw [if_pos he, ih]
      simp only [countLen, if_pos he]
      omega
    · rw [if_neg he, ih]
      simp only [countLen, if_neg he]
      omega

theorem sameSizeCount_countLen (n : Nat) (shards : List (List Nat)) :
    sameSizeCount n shards = countLen n shards := by
  rw [sameSizeCount, sameSizeCount_eq]
  omega

theorem presentLenFold_all_empty : ∀ (shards : List (List Nat)),
    (∀ s ∈ shards, s = []) → ∀ acc : Nat × Nat,
    shards.foldl (fun acc elem =>
      if elem.length ≠ 0 then (acc.1 + 1, elem.length) else acc) acc = acc := by
  intro shards
  induction shards with
  | nil => intro _ acc; rfl
  | cons e r ih =>
    intro hall acc
    have he : e = [] := hall e (by simp)
    simp only [List.foldl_cons]
    rw [if_neg (by rw [he]; simp)]
    exact ih (fun s hs => hall s (by simp [hs])) acc

theorem presentLenFold_snd_shared (L : Nat) : ∀ (shards : List (List Nat)),
    (∀ s ∈ shards, s ≠ [] → s.length = L) → (∃ s ∈ shards, s ≠ []) →
    ∀ acc : Nat × Nat,
    (shards.foldl (fun acc elem =>
      if elem.length ≠ 0 then (acc.1 + 1, elem.length) else acc) acc).2 = L := by
  intro shards
  induction shards with
  | nil => intro _ hex; simp at hex
  | cons e r ih =>
    intro hshare hex acc
    simp only [List.foldl_cons]
    by_cases he : e.length ≠ 0
    · rw [if_pos he]
      by_cases hexr : ∃ s ∈ r, s ≠ []
      · exact ih (fun s hs hne => hshare s (by simp [hs]) hne) hexr _
      · push_neg at hexr
        rw [presentLenFold_all_empty r hexr _]
        exact hshare e (by simp) (fun hnil => by rw [hnil] at he; simp at he)
    · rw [if_neg he]
      have he0 : e.length = 0 := by omega
      have hee : e = [] := List.eq_nil_of_length_eq_zero he0
      apply ih (fun s hs hne => hshare s (by simp [hs]) hne) ?_ acc
      obtain ⟨s, hsmem, hsne⟩ := hex
      rcases (by simpa using hsmem : s = e ∨ s ∈ r) with rfl | h
      · exact absurd hee hsne
      · exact ⟨s, h, hsne⟩

theorem presentLenFold_snd_witness : ∀ (shards : List (List Nat)),
    (∃ s ∈ shards, s ≠ []) → ∀ acc : Nat × Nat,
    ∃ s ∈ shards, s ≠ [] ∧
      (shards.foldl (fun acc elem =>
        if elem.length ≠ 0 then (acc.1 + 1, elem.length) else acc) acc).2 = s.length := by
  intro shards
  induction shards with
  | nil => intro hex; simp at hex
  | cons e r ih =>
    intro hex acc
    simp only [List.foldl_cons]
    by_cases hexr : ∃ s ∈ r, s ≠ []
    · obtain ⟨s, hm, hne, heq⟩ :=
        ih hexr (if e.length ≠ 0 then (acc.1 + 1, e.length) else acc)
      exact ⟨s, by simp [hm], hne, heq⟩
    · push_neg at hexr
      have hee : e ≠ [] := by
        obtain ⟨s, hsmem, hsne⟩ := hex
        rcases (by simpa using hsmem : s = e ∨ s ∈ r) with rfl | h
        · exact hsne
        · exact absurd (hexr s h) hsne
      have he : e.length ≠ 0 := fun h0 => hee (List.eq_nil_of_length_eq_zero h0)
      rw [if_pos he, presentLenFold_all_empty r hexr _]
      exact ⟨e, by simp, hee, rfl⟩

theorem countLen_le_present (l : Nat) (hl : l ≠ 0) :
    ∀ shards : List (List Nat), countLen l shards ≤ presentCount shards := by
  intro shards
  induction shards with
  | nil => simp [countLen, presentCount]
  | cons e r ih =>
    simp only [countLen, presentCount]
    by_cases he : e.length = l
    · rw [if_pos he, if_pos (by omega)]
      omega
    · rw [if_neg he]
      by_cases hne : e.length ≠ 0
      · rw [if_pos hne]; omega
      · rw [if_neg hne]; omega

theorem countLen_lt_present (l : Nat) (hl : l ≠ 0) :
    ∀ shards : List (List Nat), ∀ s ∈ shards, s ≠ [] → s.length ≠ l →
      countLen l shards < presentCount shards := by
  intro shards
  induction shards with
  | nil => intro s hs; simp at hs
  | cons e r ih =>
    intro s hs hne hdiff
    simp only [countLen, presentCount]
    rcases (by simpa using hs : s = e ∨ s ∈ r) with rfl | h
    · rw [if_neg hdiff,
        if_pos (show s.length ≠ 0 from fun h0 => hne (List.eq_nil_of_length_eq_zero h0))]
      have := countLen_le_present l hl r
      omega
    · have hrec := ih s h hne hdiff
      by_cases he : e.length = l
      · rw [if_pos he, if_pos (by omega)]; omega
      · rw [if_neg he]
        by_cases hne2 : e.length ≠ 0
        · rw [if_pos hne2]; omega
        · rw [if_neg hne2]; omega

theorem countLen_eq_present (l : Nat) (hl : l ≠ 0) :
    ∀ shards : List (List Nat), (∀ s ∈ shards, s ≠ [] → s.length = l) →
      countLen l shards = presentCount shards := by
  intro shards
  induction shards with
  | nil => simp [countLen, presentCount]
  | cons e r ih =>
    intro hshare
    simp only [countLen, presentCount]
    by_cases hne : e.length ≠ 0
    · rw [if_pos hne,
        if_pos (hshare e (by simp) (fun h0 => by rw [h0] at hne; simp at hne)),
        ih (fun s hs => hshare s (by simp [hs]))]
    · rw [if_neg hne, if_neg (by omega), ih (fun s hs => hshare s (by simp [hs]))]

theorem presentCount_all_empty : ∀ shards : List (List Nat),
    (∀ s ∈ shards, s = []) → presentCount shards = 0 := by
  intro shards
  induction shards with
  | nil => intro _; rfl
  | cons e r ih =>
    intro hall
    simp only [presentCount]
    rw [if_neg (by rw [hall e (by simp)]; simp), ih (fun s hs => hall s (by simp [hs]))]

theorem countLen_zero_all_empty : ∀ shards : List (List Nat),
    (∀ s ∈ shards, s = []) → countLen 0 shards = shards.length := by
  intro shards
  induction shards with
  | nil => intro _; rfl
  | cons e r ih =>
    intro hall
    simp only [countLen, List.length_cons]
    rw [if_pos (by rw [hall e (by simp)]; rfl), ih (fun s hs => hall s (by simp [hs]))]
    omega

theorem decode_check_all_empty (rs : ReedSolomon) (shards : List (List Nat))
    (hlen : shards.length = rs.total_shard_count) (hne : shards ≠ [])
    (hall : ∀ s ∈ shards, s = []) :
    rs.check_shard_sizes_for_decode shards = .error .InconsistentShards := by
  have hpl : presentLenFold shards = (0, 0) := presentLenFold_all_empty shards hall (0, 0)
  simp only [ReedSolomon.check_shard_sizes_for_decode]
  rw [if_neg (by omega), if_neg (by omega), hpl, sameSizeCount_countLen,
    if_pos (show ((0, 0) : Nat × Nat).1 ≠ countLen ((0, 0) : Nat × Nat).2 shards by
      show (0 : Nat) ≠ countLen 0 shards
      rw [countLen_zero_all_empty shards hall]
      have : 0 < shards.length := List.length_pos.mpr hne
      omega)]

theorem decode_check_shared (rs : ReedSolomon) (shards : List (List Nat)) (L : Nat)
    (hlen : shards.length = rs.total_shard_count)
    (hshare : ∀ s ∈ shards, s ≠ [] → s.length = L)
    (hex : ∃ s ∈ shards, s ≠ []) :
    rs.check_shard_sizes_for_decode shards =
      if presentCount shards < rs.data_shard_count then .error .TooFewShards
      else .ok (presentCount shards, L) := by
  have hL0 : L ≠ 0 := by
    obtain ⟨s, hm, hne⟩ := hex
    have hsl := hshare s hm hne
    intro h0
    rw [h0] at hsl
    exact hne (List.eq_nil_of_length_eq_zero hsl)
  have hsnd : (presentLenFold shards).2 = L :=
    presentLenFold_snd_shared L shards hshare hex (0, 0)
  have hfst : (presentLenFold shards).1 = presentCount shards := presentLenFold_fst shards
  simp only [ReedSolomon.check_shard_sizes_for_decode]
  rw [if_neg (by omega), if_neg (by omega), hsnd, hfst, sameSizeCount_countLen,
    countLen_eq_present L hL0 shards hshare,
    if_neg (show ¬presentCount shards ≠ presentCount shards by simp)]

theorem decode_check_two_differ (rs : ReedSolomon) (shards : List (List Nat))
    (hlen : shards.length = rs.total_shard_count)
    (s₁ s₂ : List Nat) (h₁ : s₁ ∈ shards) (h₂ : s₂ ∈ shards)
    (hn₁ : s₁ ≠ []) (hn₂ : s₂ ≠ []) (hdiff : s₁.length ≠ s₂.length) :
    rs.check_shard_sizes_for_decode shards = .error .InconsistentShards := by
  obtain ⟨s, hsmem, hsne, hsl⟩ :=
    presentLenFold_snd_witness shards ⟨s₁, h₁, hn₁⟩ (0, 0)
  have hsl2 : (presentLenFold shards).2 = s.length := hsl
  have hl0 : (presentLenFold shards).2 ≠ 0 := by
    rw [hsl2]
    exact fun h0 => hsne (List.eq_nil_of_length_eq_zero h0)
  have hwit : ∃ w ∈ shards, w ≠ [] ∧ w.length ≠ (presentLenFold shards).2 := by
    by_cases hcase : s₁.length = (presentLenFold shards).2
    · refine ⟨s₂, h₂, hn₂, ?_⟩
      rw [← hcase]
      exact fun hc => hdiff hc.symm
    · exact ⟨s₁, h₁, hn₁, hcase⟩
  obtain ⟨w, hwmem, hwne, hwdiff⟩ := hwit
  have hstrict := countLen_lt_present (presentLenFold shards).2 hl0 shards w hwmem hwne hwdiff
  have hfst : (presentLenFold shards).1 = presentCount shards := presentLenFold_fst shards
  simp only [ReedSolomon.check_shard_sizes_for_decode]
  rw [if_neg (by omega), if_neg (by omega), sameSizeCount_countLen,
    if_pos (show (presentLenFold shards).1 ≠ countLen (presentLenFold shards).2 shards by
      rw [hfst]
      omega)]

theorem decode_of_check_error (rs : ReedSolomon) (shards : List (List Nat)) (e : Error)
    (h : rs.check_shard_sizes_for_decode shards = .error e) :
    rs.decode shards = some (.error e) := by
  unfold ReedSolomon.decode
  rw [h]

theorem decode_of_check_ok (rs : ReedSolomon) (shards : List (List Nat)) (p l : Nat)
    (h : rs.check_shard_sizes_for_decode shards = .ok (p, l)) :
    rs.decode shards = decodeBody rs shards p l := by
  unfold ReedSolomon.decode
  rw [h]

/-- `invert` fails only with `NonSquareMatrix` or `SingularMatrix`. -/
theorem invert_error_cases (m : Matrix) (gf : GaloisField) (e : Error)
    (h : m.invert gf = Except.error e) :
    e = Error.NonSquareMatrix ∨ e = Error.SingularMatrix := by
  by_cases hsq : m.rows = m.cols
  · rw [invert_of_square m gf hsq] at h
    cases hg : (augIdentity m).gauss_elim gf with
    | error e2 =>
      rw [invertStep_error m gf _ e2 hg] at h
      injection h with h1
      exact Or.inr (h1 ▸ gauss_elim_error_singular _ gf e2 hg)
    | ok w2 =>
      rw [invertStep_ok m gf _ w2 hg] at h
      cases h
  · unfold Matrix.invert at h
    rw [if_pos hsq] at h
    injection h with h1
    exact Or.inl h1.symm

/-! ## Length preservation through `encode_shards` and the fill loops -/

theorem initRow_some_length (gf : GaloisField) (pb : Nat) :
    ∀ (xs : List Nat) (i : Nat) (row row1 : List Nat),
      initRow gf pb xs i row = some row1 → row1.length = row.length := by
  intro xs
  induction xs with
  | nil =>
    intro i row row1 h
    injection h with h1
    rw [← h1]
  | cons x rest ih =>
    intro i row row1 h
    simp only [initRow] at h
    by_cases hi : i < row.length
    · rw [if_pos hi] at h
      have := ih (i + 1) _ _ h
      rw [this, List.length_set]
    · rw [if_neg hi] at h
      cases h

theorem accRow_some_length (gf : GaloisField) (pb : Nat) :
    ∀ (xs : List Nat) (i : Nat) (row row1 : List Nat),
      accRow gf pb xs i row = some row1 → row1.length = row.length := by
  intro xs
  induction xs with
  | nil =>
    intro i row row1 h
    injection h with h1
    rw [← h1]
  | cons x rest ih =>
    intro i row row1 h
    simp only [accRow] at h
    by_cases hi : i < row.length
    · rw [if_pos hi] at h
      have := ih (i + 1) _ _ h
      rw [this, List.length_set]
    · rw [if_neg hi] at h
      cases h

theorem encodeCell_none_parity (gf : GaloisField) (parity : Matrix)
    (inputs : List (List Nat)) (inp out : Nat) (outputs : List (List Nat))
    (hp : (parity.data.get? out).bind (fun prow => prow.get? inp) = none) :
    encodeCell gf parity inputs inp out outputs = none := by
  unfold encodeCell
  rw [hp]

theorem encodeCell_none_inputs (gf : GaloisField) (parity : Matrix)
    (inputs : List (List Nat)) (inp out : Nat) (outputs : List (List Nat)) (pb : Nat)
    (hp : (parity.data.get? out).bind (fun prow => prow.get? inp) = some pb)
    (hx : inputs.get? inp = none) :
    encodeCell gf parity inputs inp out outputs = none := by
  unfold encodeCell
  rw [hp, hx]

theorem encodeCell_none_outputs (gf : GaloisField) (parity : Matrix)
    (inputs : List (List Nat)) (inp out : Nat) (outputs : List (List Nat))
    (pb : Nat) (xs : List Nat)
    (hp : (parity.data.get? out).bind (fun prow => prow.get? inp) = some pb)
    (hx : inputs.get? inp = some xs) (hy : outputs.get? out = none) :
    encodeCell gf parity inputs inp out outputs = none := by
  unfold encodeCell
  rw [hp, hx, hy]

theorem encodeCell_some_eq (gf : GaloisField) (parity : Matrix)
    (inputs : List (List Nat)) (inp out : Nat) (outputs : List (List Nat))
    (pb : Nat) (xs row : List Nat)
    (hp : (parity.data.get? out).bind (fun prow => prow.get? inp) = some pb)
    (hx : inputs.get? inp = some xs) (hy : outputs.get? out = some row) :
    encodeCell gf parity inputs inp out outputs =
      (if inp = 0 then initRow gf pb xs 0 row else accRow gf pb xs 0 row).map
        (fun row1 => outputs.set out row1) := by
  unfold encodeCell
  rw [hp, hx, hy]

theorem encodeCell_some_lengths (gf : GaloisField) (parity : Matrix)
    (inputs : List (List Nat)) (inp out : Nat) (outputs outs1 : List (List Nat))
    (h : encodeCell gf parity inputs inp out outputs = some outs1) :
    outs1.length = outputs.length ∧
    ∀ o, (outs1.getD o []).length = (outputs.getD o []).length := by
  cases hp : (parity.data.get? out).bind (fun prow => prow.get? inp) with
  | none =>
    rw [encodeCell_none_parity gf parity inputs inp out outputs hp] at h
    cases h
  | some pb =>
    cases hx : inputs.get? inp with
    | none =>
      rw [encodeCell_none_inputs gf parity inputs inp out outputs pb hp hx] at h
      cases h
    | some xs =>
      cases hy : outputs.get? out with
      | none =>
        rw [encodeCell_none_outputs gf parity inputs inp out outputs pb xs hp hx hy] at h
        cases h
      | some row =>
        rw [encodeCell_some_eq gf parity inputs inp out outputs pb xs row hp hx hy] at h
        cases hrow : (if inp = 0 then initRow gf pb xs 0 row
            else accRow gf pb xs 0 row) with
        | none => rw [hrow] at h; cases h
        | some row1 =>
          rw [hrow] at h
          simp only [Option.map] at h
          injection h with h1
          subst h1
          have hrl : row1.length = row.length := by
            by_cases h0 : inp = 0
            · rw [if_pos h0] at hrow
              exact initRow_some_length gf pb xs 0 row row1 hrow
            · rw [if_neg h0] at hrow
              exact accRow_some_length gf pb xs 0 row row1 hrow
          have hrow_eq : outputs.getD out [] = row := get?_some_getD [] hy
          refine ⟨List.length_set _ _ _, ?_⟩
          intro o
          by_cases ho : o = out
          · subst ho
            rw [getD_set_self (get?_some_lt hy), hrow_eq, hrl]
          · rw [getD_set_ne (fun hh => ho hh.symm) _ _]

theorem encodeOutLoop_some_lengths (gf : GaloisField) (parity : Matrix)
    (inputs : List (List Nat)) (inp : Nat) :
    ∀ (fuel c : Nat) (outputs outs1 : List (List Nat)),
      encodeOutLoop gf parity inputs inp fuel c outputs = some outs1 →
      outs1.length = outputs.length ∧
      ∀ o, (outs1.getD o []).length = (outputs.getD o []).length := by
  intro fuel
  induction fuel with
  | zero =>
    intro c outputs outs1 h
    injection h with h1
    rw [← h1]
    exact ⟨rfl, fun _ => rfl⟩
  | succ n ih =>
    intro c outputs outs1 h
    simp only [encodeOutLoop] at h
    cases hc : encodeCell gf parity inputs inp c outputs with
    | none => rw [hc] at h; cases h
    | some outsA =>
      rw [hc] at h
      obtain ⟨hl1, hr1⟩ := encodeCell_some_lengths gf parity inputs inp c outputs outsA hc
      obtain ⟨hl2, hr2⟩ := ih (c + 1) outsA outs1 h
      exact ⟨by rw [hl2, hl1], fun o => by rw [hr2 o, hr1 o]⟩

theorem encodeInpLoop_some_lengths (gf : GaloisField) (parity : Matrix)
    (inputs : List (List Nat)) (m : Nat) :
    ∀ (fuel s : Nat) (outputs outs1 : List (List Nat)),
      encodeInpLoop gf parity inputs m fuel s outputs = some outs1 →
      outs1.length = outputs.length ∧
      ∀ o, (outs1.getD o []).length = (outputs.getD o []).length := by
  intro fuel
  induction fuel with
  | zero =>
    intro s outputs outs1 h
    injection h with h1
    rw [← h1]
    exact ⟨rfl, fun _ => rfl⟩
  | succ n ih =>
    intro s outputs outs1 h
    simp only [encodeInpLoop] at h
    cases hc : encodeOutLoop gf parity inputs s m 0 outputs with
    | none => rw [hc] at h; cases h
    | some outsA =>
      rw [hc] at h
      obtain ⟨hl1, hr1⟩ := encodeOutLoop_some_lengths gf parity inputs s m 0 outputs outsA hc
      obtain ⟨hl2, hr2⟩ := ih (s + 1) outsA outs1 h
      exact ⟨by rw [hl2, hl1], fun o => by rw [hr2 o, hr1 o]⟩

theorem fillDataLoop_spec (outputs : List (List Nat)) :
    ∀ (fuel i oc : Nat) (shards : List (List Nat)) (res : List (List Nat) × Nat),
      i + fuel ≤ shards.length →
      fillDataLoop outputs fuel i oc shards = some res →
      res.1.length = shards.length ∧
      (∀ t, t < i ∨ i + fuel ≤ t → res.1.getD t [] = shards.getD t []) ∧
      (∀ t, i ≤ t → t < i + fuel →
        (res.1.getD t [] = shards.getD t [] ∧ (shards.getD t []).length ≠ 0) ∨
        (∃ r, r < outputs.length ∧ res.1.getD t [] = outputs.getD r [])) := by
  intro fuel
  induction fuel with
  | zero =>
    intro i oc shards res _ h
    injection h with h1
    rw [← h1]
    exact ⟨rfl, fun _ _ => rfl, fun t h1 h2 => absurd h2 (by omega)⟩
  | succ n ih =>
    intro i oc shards res hbound h
    simp only [fillDataLoop] at h
    by_cases hempty : (shards.getD i []).length = 0
    · rw [if_pos hempty] at h
      cases hrow : outputs.get? oc with
      | none => rw [hrow] at h; cases h
      | some row =>
        rw [hrow] at h
        obtain ⟨l1, l2, l3⟩ := ih (i + 1) (oc + 1) (shards.set i row) res
          (by rw [List.length_set]; omega) h
        refine ⟨by rw [l1, List.length_set], ?_, ?_⟩
        · intro t ht
          rw [l2 t (by omega), getD_set_ne (by omega) _ _]
        · intro t h1 h2
          by_cases hti : t = i
          · subst hti
            right
            refine ⟨oc, get?_some_lt hrow, ?_⟩
            rw [l2 t (by omega), getD_set_self (by omega), get?_some_getD [] hrow]
          · rcases l3 t (by omega) (by omega) with ⟨ha, hb⟩ | ⟨r, hr1, hr2⟩
            · left
              rw [getD_set_ne (by omega) _ _] at ha hb
              exact ⟨ha, hb⟩
            · exact Or.inr ⟨r, hr1, hr2⟩
    · rw [if_neg hempty] at h
      obtain ⟨l1, l2, l3⟩ := ih (i + 1) oc shards res (by omega) h
      refine ⟨l1, ?_, ?_⟩
      · intro t ht
        exact l2 t (by omega)
      · intro t h1 h2
        by_cases hti : t = i
        · subst hti
          exact Or.inl ⟨l2 t (by omega), hempty⟩
        · exact l3 t (by omega) (by omega)

theorem fillParityLoop_spec (L : Nat) :
    ∀ (fuel i : Nat) (shards : List (List Nat)),
      (fillParityLoop L fuel i shards).length = shards.length ∧
      (∀ t, t < i ∨ i + fuel ≤ t →
        (fillParityLoop L fuel i shards).getD t [] = shards.getD t []) ∧
      (∀ t, i ≤ t → t < i + fuel → t < shards.length →
        ((fillParityLoop L fuel i shards).getD t [] = shards.getD t [] ∧
          (shards.getD t []).length ≠ 0) ∨
        (fillParityLoop L fuel i shards).getD t [] = List.replicate L 0) := by
  intro fuel
  induction fuel with
  | zero =>
    intro i shards
    exact ⟨rfl, fun _ _ => rfl, fun t h1 h2 => absurd h2 (by omega)⟩
  | succ n ih =>
    intro i shards
    simp only [fillParityLoop]
    by_cases hempty : (shards.getD i []).length = 0
    · rw [if_pos hempty]
      obtain ⟨l1, l2, l3⟩ := ih (i + 1) (shards.set i (List.replicate L 0))
      refine ⟨by rw [l1, List.length_set], ?_, ?_⟩
      · intro t ht
        rw [l2 t (by omega), getD_set_ne (by omega) _ _]
      · intro t h1 h2 h3
        by_cases hti : t = i
        · subst hti
          right
          rw [l2 t (by omega), getD_set_self (by omega)]
        · rcases l3 t (by omega) (by omega) (by rw [List.length_set]; omega) with ⟨ha, hb⟩ | hrep
          · left
            rw [getD_set_ne (by omega) _ _] at ha hb
            exact ⟨ha, hb⟩
          · exact Or.inr hrep
    · rw [if_neg hempty]
      obtain ⟨l1, l2, l3⟩ := ih (i + 1) shards
      refine ⟨l1, ?_, ?_⟩
      · intro t ht
        exact l2 t (by omega)
      · intro t h1 h2 h3
        by_cases hti : t = i
        · subst hti
          exact Or.inl ⟨l2 t (by omega), hempty⟩
        · exact l3 t (by omega) (by omega) h3

theorem mem_exists_getD {α : Type} {l : List α} {s : α} (d : α) (h : s ∈ l) :
    ∃ n, n < l.length ∧ l.getD n d = s := by
  obtain ⟨n, hn, he⟩ := List.mem_iff_getElem.mp h
  exact ⟨n, hn, by simp [List.getD_eq_getElem?_getD, List.getElem?_eq_getElem hn, he]⟩

theorem encode_not_some_error (rs : ReedSolomon) (shards : List (List Nat))
    (hck : rs.check_shard_sizes shards = .ok ()) (e : Error) :
    rs.encode shards ≠ some (.error e) := by
  simp only [ReedSolomon.encode, hck]
  split
  · simp
  · simp

theorem encode_shards_some_lengths (rs : ReedSolomon) (parity : Matrix)
    (inputs outputs outs1 : List (List Nat))
    (h : rs.encode_shards parity inputs outputs = some outs1) :
    outs1.length = outputs.length ∧
    ∀ o, (outs1.getD o []).length = (outputs.getD o []).length := by
  unfold ReedSolomon.encode_shards at h
  exact encodeInpLoop_some_lengths rs.gf parity inputs rs.parity_shard_count
    rs.data_shard_count 0 outputs outs1 h

/-- On an input of outer length N whose non-empty entries all share one
length, with at least one entry non-empty, `decode` never reports
`InconsistentShards`. -/
theorem decode_not_inconsistent (rs : ReedSolomon) (shards : List (List Nat)) (L : Nat)
    (hK : 1 ≤ rs.data_shard_count)
    (hN : rs.total_shard_count = rs.data_shard_count + rs.parity_shard_count)
    (hlen : shards.length = rs.total_shard_count)
    (hshare : ∀ s ∈ shards, s ≠ [] → s.length = L)
    (hex : ∃ s ∈ shards, s ≠ []) :
    rs.decode shards ≠ some (.error .InconsistentShards) := by
  have hL0 : L ≠ 0 := by
    obtain ⟨s, hm, hne⟩ := hex
    have hsl := hshare s hm hne
    intro h0
    rw [h0] at hsl
    exact hne (List.eq_nil_of_length_eq_zero hsl)
  have hck := decode_check_shared rs shards L hlen hshare hex
  by_cases hfew : presentCount shards < rs.data_shard_count
  · rw [if_pos hfew] at hck
    rw [decode_of_check_error rs shards _ hck]
    simp
  · rw [if_neg hfew] at hck
    rw [decode_of_check_ok rs shards _ _ hck]
    simp only [decodeBody]
    split
    · simp
    · split
      next e heq =>
        rcases invert_error_cases _ _ _ heq with rfl | rfl <;> simp
      next ddm heq =>
        split
        next heq2 => simp
        next outputs heq2 =>
          split
          next heq3 => simp
          next filled heq3 =>
            apply encode_not_some_error
            have houts := encode_shards_some_lengths rs _ _ _ _ heq2
            have houtslen : outputs.length = rs.parity_shard_count := by
              rw [houts.1, List.length_replicate]
            have houtrowlen : ∀ r, r < rs.parity_shard_count →
                (outputs.getD r []).length = L := by
              intro r hr
              rw [houts.2 r, getD_replicate hr, List.length_replicate]
            obtain ⟨hfd1, hfd2, hfd3⟩ := fillDataLoop_spec outputs rs.data_shard_count 0 0
              shards filled (by omega) heq3
            obtain ⟨hfp1, hfp2, hfp3⟩ := fillParityLoop_spec L
              (rs.total_shard_count - rs.data_shard_count) rs.data_shard_count filled.1
            apply check_shard_sizes_ok rs _ L ?_ ?_ ?_ hL0
            · rw [hfp1, hfd1, hlen]
            · rw [hfp1, hfd1]
              omega
            · intro s hs
              obtain ⟨idx, hidx, hgeq⟩ := mem_exists_getD [] hs
              rw [← hgeq]
              have hidx2 : idx < rs.total_shard_count := by
                rw [hfp1, hfd1, hlen] at hidx
                exact hidx
              by_cases hcase : idx < rs.data_shard_count
              · rw [hfp2 idx (Or.inl hcase)]
                rcases hfd3 idx (by omega) (by omega) with ⟨ha, hb⟩ | ⟨r, hr1, hr2⟩
                · rw [ha]
                  apply hshare _ (getD_mem [] (by omega))
                  intro hnil
                  rw [hnil] at hb
                  simp at hb
                · rw [hr2]
                  exact houtrowlen r (by omega)
              · have hidxlen : idx < filled.1.length := by
                  rw [hfd1]
                  omega
                rcases hfp3 idx (by omega) (by omega) hidxlen with ⟨ha, hb⟩ | hrep
                · rw [ha]
                  rw [hfd2 idx (Or.inr (by omega))] at hb ⊢
                  apply hshare _ (getD_mem [] (by omega))
                  intro hnil
                  rw [hnil] at hb
                  simp at hb
                · rw [hrep, List.length_replicate]

/-- C5 (amended): for an input of outer length exactly N whose non-empty
entries share one length L and which has at least one non-empty entry,
`decode` fails with `TooFewShards` when fewer than K entries are non-empty;
and `decode` fails with `InconsistentShards` exactly when two non-empty
entries have different lengths or all N entries are empty (the all-empty
array — excluded by the original claim's reading — trips the consistency
count, because every length-0 entry matches `shard_elem_len = 0`). -/
theorem c5_decode_validation (rs : ReedSolomon) (shards : List (List Nat)) (L : Nat)
    (hK : 1 ≤ rs.data_shard_count)
    (hN : rs.total_shard_count = rs.data_shard_count + rs.parity_shard_count)
    (hlen : shards.length = rs.total_shard_count) :
    ((∀ s ∈ shards, s ≠ [] → s.length = L) → (∃ s ∈ shards, s ≠ []) →
      presentCount shards < rs.data_shard_count →
      rs.decode shards = some (Except.error Error.TooFewShards)) ∧
    (rs.decode shards = some (Except.error Error.InconsistentShards) ↔
      ((∃ s₁ ∈ shards, ∃ s₂ ∈ shards, s₁ ≠ [] ∧ s₂ ≠ [] ∧ s₁.length ≠ s₂.length) ∨
        ∀ s ∈ shards, s = [])) := by
  constructor
  · intro hshare hex hfew
    have hck := decode_check_shared rs shards L hlen hshare hex
    rw [if_pos hfew] at hck
    exact decode_of_check_error rs shards _ hck
  · constructor
    · intro hdec
      by_contra hcon
      push_neg at hcon
      obtain ⟨hnodiff, hnotallempty⟩ := hcon
      obtain ⟨s0, hs0m, hs0ne⟩ := hnotallempty
      have hshare : ∀ s ∈ shards, s ≠ [] → s.length = s0.length :=
        fun s hm hne => hnodiff s hm s0 hs0m hne hs0ne
      exact decode_not_inconsistent rs shards s0.length hK hN hlen hshare
        ⟨s0, hs0m, hs0ne⟩ hdec
    · intro hsrc
      rcases hsrc with ⟨s₁, h₁, s₂, h₂, hn₁, hn₂, hdiff⟩ | hall
      · exact decode_of_check_error rs shards _
          (decode_check_two_differ rs shards hlen s₁ s₂ h₁ h₂ hn₁ hn₂ hdiff)
      · refine decode_of_check_error rs shards _
          (decode_check_all_empty rs shards hlen ?_ hall)
        intro hnil
        rw [hnil] at hlen
        simp at hlen
        omega

/-- Witness for C5: `new(2,2)` with one present shard of length 1 reports
`TooFewShards`. -/
theorem c5_decode_validation_witness :
    rs22.decode [[5], [], [], []] = some (Except.error Error.TooFewShards) :=
  (c5_decode_validation rs22 [[5], [], [], []] 1 (by decide) (by decide) (by decide)).1
    (by decide) (by decide) (by decide)

/-! ## Corroboration against the repository's own test vectors -/

set_option maxHeartbeats 8000000 in
/-- The encoding matrix of `new(4,2)` matches the repository's `test_new`
vector: identity on top, parity rows `[27,28,18,20]`, `[28,27,20,18]`. -/
theorem new42_matrix :
    (ReedSolomon.new 4 2).map (fun rs => rs.matrix.data) =
      Except.ok [[1, 0, 0, 0], [0, 1, 0, 0], [0, 0, 1, 0], [0, 0, 0, 1],
        [27, 28, 18, 20], [28, 27, 20, 18]] := by
  rfl

/-- Decode scenarios 3–5 of the spec at `new(2,2)` (the repository's decode
tests): a data shard, a parity shard, and one of each erased are all
recovered. -/
theorem decode_scenarios_22 :
    rs22.decode [[0, 1, 2], [], [6, 11, 12], [5, 14, 11]] =
      some (Except.ok [[0, 1, 2], [3, 4, 5], [6, 11, 12], [5, 14, 11]]) ∧
    rs22.decode [[0, 1, 2], [3, 4, 5], [6, 11, 12], []] =
      some (Except.ok [[0, 1, 2], [3, 4, 5], [6, 11, 12], [5, 14, 11]]) ∧
    rs22.decode [[0, 1, 2], [], [], [5, 14, 11]] =
      some (Except.ok [[0, 1, 2], [3, 4, 5], [6, 11, 12], [5, 14, 11]]) :=
  ⟨by rfl, by rfl, by rfl⟩

end RS
